import Mathlib

/-!
Verification development for the offshore core: the attribute transformer
(lib/offshore/core/transformations.js) and the record-creation pipeline
(lib/offshore/query/dql/create.js).

JavaScript plain values are embedded as `JVal`.  A JS object is an ordered
association list of own enumerable properties; JS arrays are embedded the same
way with their index strings as keys (lodash `_.keys` enumerates an array's
indices as strings, and property deletion or addition on an array behaves like
on any object), so one representation covers both and the tag distinguishes
`_.isArray` from `_.isPlainObject`.  `new Date(s)` is embedded as `JVal.vDate s`.
-/

namespace Offshore

inductive JVal where
  | vUndef : JVal
  | vNull : JVal
  | vBool : Bool → JVal
  | vNum : Int → JVal
  | vStr : String → JVal
  | vDate : String → JVal
  | vObj : List (String × JVal) → JVal
  | vArr : List (String × JVal) → JVal

abbrev JObj := List (String × JVal)

/-- Property read: first binding of a key, as JS property lookup on an object
whose own keys are unique. -/
def lookupF (o : JObj) (k : String) : Option JVal :=
  match o with
  | [] => none
  | (k', v) :: rest => if k' = k then some v else lookupF rest k

/-- Property write `o[k] = v`: updates the existing binding in place (keeping
its position, as JS assignment to an existing property does) or appends a new
binding at the end (JS insertion order). -/
def setF (o : JObj) (k : String) (v : JVal) : JObj :=
  match o with
  | [] => [(k, v)]
  | (k1, v1) :: rest => if k1 = k then (k, v) :: rest else (k1, v1) :: setF rest k v

/-- Property deletion `delete o[k]`. -/
def delF (o : JObj) (k : String) : JObj :=
  match o with
  | [] => []
  | (k1, v1) :: rest => if k1 = k then delF rest k else (k1, v1) :: delF rest k

/-- `_.keys(o)`: own enumerable keys in insertion order. -/
def keysF (o : JObj) : List String := o.map Prod.fst

/-- JS truthiness of an embedded value. -/
def jsTruthy : JVal → Bool
  | .vUndef => false
  | .vNull => false
  | .vBool b => b
  | .vNum n => n ≠ 0
  | .vStr s => s ≠ ""
  | .vDate _ => true
  | .vObj _ => true
  | .vArr _ => true

/-- `_.isPlainObject`. -/
def isPlainObj : JVal → Bool
  | .vObj _ => true
  | _ => false

/-- `_.isArray`. -/
def isArrV : JVal → Bool
  | .vArr _ => true
  | _ => false

/-- `_.isString`. -/
def isStrV : JVal → Bool
  | .vStr _ => true
  | _ => false

/-- An attribute declaration as it appears in a collection's `attributes`
object: a function, a string shorthand type, a plain object of declaration
fields, or any other (non-object) value. -/
inductive AttrDecl where
  | fnDecl : AttrDecl
  | strDecl : String → AttrDecl
  | objDecl : List (String × JVal) → AttrDecl
  | primDecl : JVal → AttrDecl

/-- JS truthiness of a declaration value (functions and objects are truthy,
a string is truthy when nonempty, other primitives by `jsTruthy`). -/
def attrDeclTruthy : AttrDecl → Bool
  | .fnDecl => true
  | .strDecl s => s ≠ ""
  | .objDecl _ => true
  | .primDecl v => jsTruthy v

/-- `attributes[k]` read through the `a || b` fallthrough: yields the
declaration only when it is present and truthy. -/
def lookupTruthyAttr (attrs : List (String × AttrDecl)) (k : String) :
    Option AttrDecl :=
  match attrs with
  | [] => none
  | (k', d) :: rest =>
    if k' = k then (if attrDeclTruthy d then some d else lookupTruthyAttr rest k)
    else lookupTruthyAttr rest k

/-- Transformation-map read `self._transformations[k]` (string-to-string map). -/
def lookupS (t : List (String × String)) (k : String) : Option String :=
  match t with
  | [] => none
  | (k', c) :: rest => if k' = k then some c else lookupS rest k

/-- `parentAttr = self.attributes[property] || self.attributes[self._transformations[property]] || parentAttr`
(transformations.js line 193).  A falsy declaration falls through each `||`. -/
def resolveParentAttr (attrs : List (String × AttrDecl))
    (trans : List (String × String)) (p : String) (pa : Option AttrDecl) :
    Option AttrDecl :=
  match lookupTruthyAttr attrs p with
  | some d => some d
  | none =>
    match lookupS trans p with
    | some c =>
      match lookupTruthyAttr attrs c with
      | some d => some d
      | none => pa
    | none => pa

/-- `var type = parentAttr ? parentAttr.type || parentAttr : null`
(transformations.js line 194), reduced to the string the later comparisons
`type === 'json'` / `'date'` / `'datetime'` can match: `some t` when the
resolved type value is a (truthy) string, `none` when it is `null` or any
non-string value (an object, a function, a falsy value). -/
def typeTag : Option AttrDecl → Option String
  | none => none
  | some d =>
    match d with
    | .strDecl s => if s ≠ "" then some s else none
    | .objDecl fields =>
      match lookupF fields "type" with
      | some (.vStr t) => if t ≠ "" then some t else none
      | _ => none
    | _ => none

/-- `Transformation.prototype.initialize` (transformations.js lines 37-72):
builds the attribute-to-column map.  Function and string declarations are
skipped, as are non-object values; for an object declaration carrying a
`columnName` key, a non-string value throws, a value equal to the attribute
name adds nothing, and otherwise the pair is registered in iteration order.
JS object keys are unique, so acting on the single `columnName` binding by
lookup is equivalent to the source's loop over the declaration's keys. -/
def buildTransformations (attrs : List (String × AttrDecl)) :
    Except String (List (String × String)) :=
  match attrs with
  | [] => .ok []
  | (attr, d) :: rest =>
    match d with
    | .fnDecl => buildTransformations rest
    | .strDecl _ => buildTransformations rest
    | .primDecl _ => buildTransformations rest
    | .objDecl fields =>
      match lookupF fields "columnName" with
      | none => buildTransformations rest
      | some (.vStr c) =>
        if attr = c then buildTransformations rest
        else
          match buildTransformations rest with
          | .ok m => .ok ((attr, c) :: m)
          | .error e => .error e
      | some _ => .error "columnName transformation must be a string"

/-!
`Transformation.prototype.serialize` (transformations.js lines 82-227).
`recursiveSerialize(obj, parentAttr)` iterates over a snapshot of the keys of
the object while mutating it, so it is embedded as a fold over the snapshot
with the object as evolving state (`serLoop` iterating `serStepH`).  The
assignment `parentAttr = ...` inside the loop mutates the closure variable, so
the resolved attribute is threaded to the following iterations as well.
Recursion into nested values reads the evolving state, which structural
recursion on the value cannot see through; `serFuel` bounds the nesting depth
instead (the wrappers pass a bound that dominates the depth of the input, so
the depth 0 cut is never reached on inputs the source can see). -/

mutual

def jvalSize : JVal → Nat
  | .vObj l => 1 + jobjSize l
  | .vArr l => 1 + jobjSize l
  | _ => 1

def jobjSize : List (String × JVal) → Nat
  | [] => 1
  | (_, v) :: r => 1 + jvalSize v + jobjSize r

end

/-- One iteration of the `recursiveSerialize` key loop (the body of the
`forEach` of transformations.js lines 187-225) on property `p`.  The parameter
`child` is the recursive call used for nested values (`recursiveSerialize`
one level down); it receives the nested object or array bindings together
with the resolved `parentAttr`.  Returns the updated object and the resolved
`parentAttr` that the next iteration of the loop sees. -/
def serStepH (trans : List (String × String)) (attrs : List (String × AttrDecl))
    (child : JObj → Option AttrDecl → JObj) (f : JObj) (p : String)
    (pa : Option AttrDecl) : JObj × Option AttrDecl :=
  match lookupF f p with
  | none => (f, pa)
  | some v =>
    let pa' := resolveParentAttr attrs trans p pa
    let tg := typeTag pa'
    if isArrV v ∧ (p = "or" ∨ p = "and") then
      -- line 197: recurse into the or/and array in place, no rename of the key
      match v with
      | .vArr l => (setF f p (JVal.vArr (child l pa')), pa')
      | w => (setF f p w, pa')
    else if tg ≠ some "json" ∧ isPlainObj v then
      -- lines 200-211: nested non-json object; `obj[c] = _.clone(obj[p]);
      -- delete obj[p]` (a shallow clone of a plain object carries the same
      -- bindings), then recurse into `obj[c]` (a no-op when that property
      -- ended up absent)
      match lookupS trans p with
      | some c =>
        let f1 := delF (setF f c v) p
        (match lookupF f1 c with
         | some (.vObj o) => (setF f1 c (.vObj (child o pa')), pa')
         | _ => (f1, pa'))
      | none =>
        match v with
        | .vObj o => (setF f p (.vObj (child o pa')), pa')
        | _ => (f, pa')
    else
      -- lines 214-224: leaf; move the value under the mapped key
      -- (`delete obj[p]` then `obj[c] = value`), then the date cast
      let r :=
        match lookupS trans p with
        | some c => (setF (delF f p) c v, c)
        | none => (f, p)
      let f3 :=
        match lookupF r.1 r.2 with
        | some (.vStr s) =>
          if tg = some "date" ∨ tg = some "datetime" then setF r.1 r.2 (.vDate s) else r.1
        | _ => r.1
      (f3, pa')

/-- The `_.keys(obj).forEach` loop of `recursiveSerialize`: iterates the step
over the snapshot of keys, threading the mutated object and the resolved
`parentAttr`. -/
def serLoop (trans : List (String × String)) (attrs : List (String × AttrDecl))
    (child : JObj → Option AttrDecl → JObj) :
    JObj → List String → Option AttrDecl → JObj
  | f, [], _ => f
  | f, p :: ps, pa =>
    let r := serStepH trans attrs child f p pa
    serLoop trans attrs child r.1 ps r.2

/-- `recursiveSerialize` with an explicit nesting-depth budget `d`: at depth
`d+1` the loop runs over the object's key snapshot with recursion into nested
values at depth `d`; at depth 0 a nested value is left as is.  The wrappers
pass a budget that dominates the depth of the input, so the cut is never
reached on the inputs the source can see. -/
def serFuel (trans : List (String × String)) (attrs : List (String × AttrDecl)) :
    Nat → JObj → Option AttrDecl → JObj
  | 0 => fun o _ => o
  | Nat.succ d => fun o pa =>
    serLoop trans attrs (fun o2 pa2 => serFuel trans attrs d o2 pa2) o (keysF o) pa

/-- `serialize` in the default value mode (the tail of transformations.js:
lines 169-171 plus the bare-string special case of lines 179-185). -/
def serializeValues (trans : List (String × String)) (attrs : List (String × AttrDecl))
    (input : JVal) : JVal :=
  match input with
  | .vStr s =>
    match lookupS trans s with
    | some c => .vStr c
    | none => .vStr s
  | .vObj o => .vObj (serFuel trans attrs (jobjSize o) o none)
  | .vArr l => .vArr (serFuel trans attrs (jobjSize l) l none)
  | v => v

/-- The `sort` rewrite (lines 98-105): for each snapshot key with a truthy
mapping, move the value under the column key and delete the old key. -/
def transformSortObj (trans : List (String × String)) (o : JObj) : JObj :=
  (keysF o).foldl (fun st k =>
    match lookupS trans k with
    | some c =>
      if c ≠ "" then delF (setF st c ((lookupF st k).getD .vUndef)) k else st
    | none => st) o

/-- Element rewrite for `select`/`sum`/`average`/`min`/`max`/`groupBy`
(lines 89-150): a string element with a truthy mapping is replaced by its
column name. -/
def transformNameList (trans : List (String × String)) (l : JObj) : JObj :=
  l.map (fun kv =>
    match kv.2 with
    | .vStr s =>
      match lookupS trans s with
      | some c => if c ≠ "" then (kv.1, JVal.vStr c) else kv
      | none => kv
    | _ => kv)

def applyCriteriaListField (trans : List (String × String)) (fs : JObj)
    (name : String) : JObj :=
  match lookupF fs name with
  | some (.vArr l) => setF fs name (.vArr (transformNameList trans l))
  | _ => fs

def applySortField (trans : List (String × String)) (fs : JObj) : JObj :=
  match lookupF fs "sort" with
  | some (.vObj o) => setF fs "sort" (.vObj (transformSortObj trans o))
  | some (.vArr l) => setF fs "sort" (.vArr (transformSortObj trans l))
  | _ => fs

/-- `if (criteria.where) recursiveSerialize(criteria.where)` (lines 151-153):
the where tree is rewritten in place.  For a bare-string `where` the inner
string case only rebinds the local `values` variable and the returned criteria
object is unaffected; primitives and dates have no enumerable keys. -/
def applyWhere (trans : List (String × String)) (attrs : List (String × AttrDecl))
    (fs : JObj) : JObj :=
  match lookupF fs "where" with
  | some (.vObj o) => setF fs "where" (.vObj (serFuel trans attrs (jobjSize o) o none))
  | some (.vArr l) => setF fs "where" (.vArr (serFuel trans attrs (jobjSize l) l none))
  | _ => fs

/-- `serialize` in criteria mode (lines 86-155), in source order. -/
def serializeCriteria (trans : List (String × String)) (attrs : List (String × AttrDecl))
    (fs : JObj) : JObj :=
  let c1 := applyCriteriaListField trans fs "select"
  let c2 := applySortField trans c1
  let c3 := applyCriteriaListField trans c2 "sum"
  let c4 := applyCriteriaListField trans c3 "average"
  let c5 := applyCriteriaListField trans c4 "min"
  let c6 := applyCriteriaListField trans c5 "max"
  let c7 := applyCriteriaListField trans c6 "groupBy"
  applyWhere trans attrs c7

/-- `serialize` in schema mode (lines 158-167): a single non-recursive pass
renaming the top-level keys whose name is in the map (presence check). -/
def serializeSchema (trans : List (String × String)) (fs : JObj) : JObj :=
  (keysF fs).foldl (fun st k =>
    match lookupS trans k with
    | some c => delF (setF st c ((lookupF st k).getD .vUndef)) k
    | none => st) fs

/-- `Transformation.prototype.serialize(attributes, behavior)`: criteria mode
when `behavior` is undefined and the input carries a non-undefined `where`
property, schema mode for `behavior === 'schema'`, value mode otherwise.  The
top-level `_.clone` is a shallow clone, which the pure embedding needs no
counterpart for. -/
def serializeJ (trans : List (String × String)) (attrs : List (String × AttrDecl))
    (input : JVal) (behavior : Option String) : JVal :=
  match behavior with
  | some b =>
    if b = "schema" then
      match input with
      | .vObj o => .vObj (serializeSchema trans o)
      | .vArr l => .vArr (serializeSchema trans l)
      | v => v
    else serializeValues trans attrs input
  | none =>
    match input with
    | .vObj fs =>
      match lookupF fs "where" with
      | some .vUndef => serializeValues trans attrs input
      | some _ => .vObj (serializeCriteria trans attrs fs)
      | none => serializeValues trans attrs input
    | .vArr fs =>
      match lookupF fs "where" with
      | some .vUndef => serializeValues trans attrs input
      | some _ => .vArr (serializeCriteria trans attrs fs)
      | none => serializeValues trans attrs input
    | v => serializeValues trans attrs v

/-- `Transformation.prototype.unserialize` (transformations.js lines 237-252):
iterate over the map in insertion order; when the row has the column, copy the
column value (read from the original row) onto the attribute key and delete
the column key unless the names coincide. -/
def unserGo (trans : List (String × String)) (row : JObj) (st : JObj) : JObj :=
  match trans with
  | [] => st
  | (k, c) :: rest =>
    match lookupF row c with
    | none => unserGo rest row st
    | some v =>
      let st1 := setF st k v
      unserGo rest row (if c ≠ k then delF st1 c else st1)

def unserializeF (trans : List (String × String)) (row : JObj) : JObj :=
  unserGo trans row row

def unserializeJ (trans : List (String × String)) (v : JVal) : JVal :=
  match v with
  | .vObj o => .vObj (unserializeF trans o)
  | .vArr o => .vArr (unserializeF trans o)
  | x => x

/-! Basic lemmas about the embedded property operations. -/

theorem lookupF_setF_self (o : JObj) (k : String) (v : JVal) :
    lookupF (setF o k v) k = some v := by
  induction o with
  | nil => simp [setF, lookupF]
  | cons kv rest ih =>
    obtain ⟨k1, v1⟩ := kv
    by_cases h : k1 = k <;> simp [setF, lookupF, h, ih]

theorem lookupF_setF_ne (o : JObj) (k q : String) (v : JVal) (hne : q ≠ k) :
    lookupF (setF o k v) q = lookupF o q := by
  induction o with
  | nil => simp [setF, lookupF, hne.symm]
  | cons kv rest ih =>
    obtain ⟨k1, v1⟩ := kv
    by_cases h : k1 = k
    · subst h
      simp [setF, lookupF, hne.symm, ih]
    · by_cases h2 : k1 = q <;> simp [setF, lookupF, h, h2, ih, hne]

theorem lookupF_delF_self (o : JObj) (k : String) :
    lookupF (delF o k) k = none := by
  induction o with
  | nil => simp [delF, lookupF]
  | cons kv rest ih =>
    obtain ⟨k1, v1⟩ := kv
    by_cases h : k1 = k <;> simp [delF, lookupF, h, ih]

theorem lookupF_delF_ne (o : JObj) (k q : String) (hne : q ≠ k) :
    lookupF (delF o k) q = lookupF o q := by
  induction o with
  | nil => simp [delF, lookupF]
  | cons kv rest ih =>
    obtain ⟨k1, v1⟩ := kv
    by_cases h : k1 = k
    · subst h
      simp [delF, lookupF, hne.symm, ih]
    · by_cases h2 : k1 = q <;> simp [delF, lookupF, h, h2, ih, hne]

theorem lookupF_isSome_iff_mem (o : JObj) (q : String) :
    (lookupF o q).isSome = true ↔ q ∈ keysF o := by
  induction o with
  | nil => simp [lookupF, keysF]
  | cons kv rest ih =>
    obtain ⟨k1, v1⟩ := kv
    by_cases h : k1 = q
    · simp [lookupF, keysF, h]
    · simp only [lookupF, if_neg h, keysF, List.map_cons, List.mem_cons]
      rw [keysF] at ih
      constructor
      · intro hs
        exact Or.inr (ih.1 hs)
      · intro hs
        rcases hs with hs | hs
        · exact absurd hs.symm h
        · exact ih.2 hs

theorem lookupF_eq_none_of_not_mem (o : JObj) (q : String) (h : q ∉ keysF o) :
    lookupF o q = none := by
  cases hx : lookupF o q with
  | none => rfl
  | some v =>
    exact absurd ((lookupF_isSome_iff_mem o q).1 (by simp [hx])) h

theorem mem_keysF_of_lookupF (o : JObj) (q : String) (v : JVal)
    (h : lookupF o q = some v) : q ∈ keysF o :=
  (lookupF_isSome_iff_mem o q).1 (by simp [h])

theorem keysF_setF_of_mem (o : JObj) (k : String) (v : JVal)
    (h : k ∈ keysF o) : keysF (setF o k v) = keysF o := by
  induction o with
  | nil => simp [keysF] at h
  | cons kv rest ih =>
    obtain ⟨k1, v1⟩ := kv
    by_cases h1 : k1 = k
    · simp [setF, keysF, h1]
    · have hk : k ∈ keysF rest := by
        rcases (by simpa [keysF] using h : k = k1 ∨ ∃ x, (k, x) ∈ rest) with h' | ⟨x, hx⟩
        · exact absurd h'.symm h1
        · exact (by simp [keysF]; exact ⟨x, hx⟩)
      have hr := ih hk
      rw [keysF, keysF] at hr
      simp [setF, keysF, h1, hr]

theorem keysF_setF_of_not_mem (o : JObj) (k : String) (v : JVal)
    (h : k ∉ keysF o) : keysF (setF o k v) = keysF o ++ [k] := by
  induction o with
  | nil => simp [setF, keysF]
  | cons kv rest ih =>
    obtain ⟨k1, v1⟩ := kv
    have h1 : k1 ≠ k := by
      intro hk
      exact h (by simp [keysF, hk])
    have h2 : k ∉ keysF rest := by
      intro hk
      rcases (by simpa [keysF] using hk : ∃ x, (k, x) ∈ rest) with ⟨x, hx⟩
      exact h (by simp [keysF]; exact Or.inr ⟨x, hx⟩)
    have hr := ih h2
    rw [keysF, keysF] at hr
    simp [setF, keysF, h1, hr]

/-! ### Claim C7: map construction -/

/-- Claim C7, part of the proof: `buildTransformations` fails exactly when some
object-shaped declaration carries a non-string `columnName`. -/
theorem buildTransformations_error_iff (attrs : List (String × AttrDecl)) :
    (∃ e, buildTransformations attrs = .error e) ↔
      ∃ k f v, (k, AttrDecl.objDecl f) ∈ attrs ∧ lookupF f "columnName" = some v ∧
        isStrV v = false := by
  induction attrs with
  | nil => simp [buildTransformations]
  | cons hd rest ih =>
    obtain ⟨k1, d⟩ := hd
    cases d with
    | fnDecl => simp [buildTransformations, ih]
    | strDecl s => simp [buildTransformations, ih]
    | primDecl v => simp [buildTransformations, ih]
    | objDecl fields =>
      have hcons :
          (∃ k f v, (k, AttrDecl.objDecl f) ∈ (k1, AttrDecl.objDecl fields) :: rest ∧
            lookupF f "columnName" = some v ∧ isStrV v = false) ↔
          ((∃ v, lookupF fields "columnName" = some v ∧ isStrV v = false) ∨
            ∃ k f v, (k, AttrDecl.objDecl f) ∈ rest ∧ lookupF f "columnName" = some v ∧
              isStrV v = false) := by
        constructor
        · rintro ⟨k, f, v, hm, hl, hs⟩
          rcases List.mem_cons.1 hm with hm | hm
          · obtain ⟨hk, hf⟩ := Prod.mk.inj hm
            cases AttrDecl.objDecl.inj hf
            exact Or.inl ⟨v, hl, hs⟩
          · exact Or.inr ⟨k, f, v, hm, hl, hs⟩
        · rintro (⟨v, hl, hs⟩ | ⟨k, f, v, hm, hl, hs⟩)
          · exact ⟨k1, fields, v, List.mem_cons_self _ _, hl, hs⟩
          · exact ⟨k, f, v, List.mem_cons_of_mem _ hm, hl, hs⟩
      rw [hcons]
      cases hcn : lookupF fields "columnName" with
      | none =>
        simp only [buildTransformations, hcn]
        rw [ih]
        constructor
        · exact fun h => Or.inr h
        · rintro (⟨v, hl, _⟩ | h)
          · exact Option.noConfusion hl
          · exact h
      | some v0 =>
        cases v0 with
        | vStr c =>
          have hleft : ¬ ∃ v, some (JVal.vStr c) = some v ∧ isStrV v = false := by
            rintro ⟨v, hl, hs⟩
            cases Option.some.inj hl
            simp [isStrV] at hs
          simp only [buildTransformations, hcn]
          by_cases hkc : k1 = c
          · rw [if_pos hkc, ih]
            constructor
            · exact fun h => Or.inr h
            · rintro (h | h)
              · exact absurd h hleft
              · exact h
          · rw [if_neg hkc]
            have hiff :
                (∃ e, (match buildTransformations rest with
                  | .ok m => Except.ok ((k1, c) :: m)
                  | .error e => Except.error e) = Except.error e) ↔
                ∃ e, buildTransformations rest = .error e := by
              cases hb : buildTransformations rest <;> simp [hb]
            rw [hiff, ih]
            constructor
            · exact fun h => Or.inr h
            · rintro (h | h)
              · exact absurd h hleft
              · exact h
        | vUndef =>
          simp only [buildTransformations, hcn]
          exact ⟨fun _ => Or.inl ⟨.vUndef, rfl, rfl⟩, fun _ => ⟨_, rfl⟩⟩
        | vNull =>
          simp only [buildTransformations, hcn]
          exact ⟨fun _ => Or.inl ⟨.vNull, rfl, rfl⟩, fun _ => ⟨_, rfl⟩⟩
        | vBool b =>
          simp only [buildTransformations, hcn]
          exact ⟨fun _ => Or.inl ⟨.vBool b, rfl, rfl⟩, fun _ => ⟨_, rfl⟩⟩
        | vNum n =>
          simp only [buildTransformations, hcn]
          exact ⟨fun _ => Or.inl ⟨.vNum n, rfl, rfl⟩, fun _ => ⟨_, rfl⟩⟩
        | vDate sd =>
          simp only [buildTransformations, hcn]
          exact ⟨fun _ => Or.inl ⟨.vDate sd, rfl, rfl⟩, fun _ => ⟨_, rfl⟩⟩
        | vObj o =>
          simp only [buildTransformations, hcn]
          exact ⟨fun _ => Or.inl ⟨.vObj o, rfl, rfl⟩, fun _ => ⟨_, rfl⟩⟩
        | vArr o =>
          simp only [buildTransformations, hcn]
          exact ⟨fun _ => Or.inl ⟨.vArr o, rfl, rfl⟩, fun _ => ⟨_, rfl⟩⟩

/-- Claim C7, part of the proof: when construction succeeds, the map contains
exactly the pairs registered from object declarations whose string
`columnName` differs from the attribute name. -/
theorem buildTransformations_ok_mem (attrs : List (String × AttrDecl))
    (m : List (String × String)) (h : buildTransformations attrs = .ok m)
    (k c : String) :
    (k, c) ∈ m ↔ ∃ f, (k, AttrDecl.objDecl f) ∈ attrs ∧
      lookupF f "columnName" = some (JVal.vStr c) ∧ k ≠ c := by
  induction attrs generalizing m with
  | nil =>
    rw [buildTransformations] at h
    cases h
    simp
  | cons hd rest ih =>
    obtain ⟨k1, d⟩ := hd
    have hextend : ∀ (hnohead : ∀ f, (k, AttrDecl.objDecl f) = (k1, d) →
        ¬(lookupF f "columnName" = some (JVal.vStr c) ∧ k ≠ c)),
        (∃ f, (k, AttrDecl.objDecl f) ∈ (k1, d) :: rest ∧
          lookupF f "columnName" = some (JVal.vStr c) ∧ k ≠ c) ↔
        (∃ f, (k, AttrDecl.objDecl f) ∈ rest ∧
          lookupF f "columnName" = some (JVal.vStr c) ∧ k ≠ c) := by
      intro hnohead
      constructor
      · rintro ⟨f, hm, hl, hne⟩
        rcases List.mem_cons.1 hm with hm | hm
        · exact absurd ⟨hl, hne⟩ (hnohead f hm)
        · exact ⟨f, hm, hl, hne⟩
      · rintro ⟨f, hm, hl, hne⟩
        exact ⟨f, List.mem_cons_of_mem _ hm, hl, hne⟩
    cases d with
    | fnDecl =>
      rw [buildTransformations] at h
      rw [ih m h, Iff.comm]
      exact hextend (fun f hf => by cases (Prod.mk.inj hf).2)
    | strDecl s =>
      rw [buildTransformations] at h
      rw [ih m h, Iff.comm]
      exact hextend (fun f hf => by cases (Prod.mk.inj hf).2)
    | primDecl v =>
      rw [buildTransformations] at h
      rw [ih m h, Iff.comm]
      exact hextend (fun f hf => by cases (Prod.mk.inj hf).2)
    | objDecl fields =>
      rw [buildTransformations] at h
      cases hcn : lookupF fields "columnName" with
      | none =>
        rw [hcn] at h
        dsimp only at h
        rw [ih m h, Iff.comm]
        refine hextend (fun f hf => ?_)
        obtain ⟨hk, hff⟩ := Prod.mk.inj hf
        cases AttrDecl.objDecl.inj hff
        rintro ⟨hl, _⟩
        rw [hcn] at hl
        cases hl
      | some v0 =>
        rw [hcn] at h
        cases v0 with
        | vStr c0 =>
          dsimp only at h
          by_cases hkc : k1 = c0
          · rw [if_pos hkc] at h
            rw [ih m h, Iff.comm]
            refine hextend (fun f hf => ?_)
            obtain ⟨hk, hff⟩ := Prod.mk.inj hf
            cases AttrDecl.objDecl.inj hff
            rintro ⟨hl, hne⟩
            rw [hcn] at hl
            cases Option.some.inj hl
            exact hne (hk.trans hkc)
          · rw [if_neg hkc] at h
            cases hb : buildTransformations rest with
            | error e => rw [hb] at h; cases h
            | ok m0 =>
              rw [hb] at h
              cases h
              constructor
              · intro hm
                rcases List.mem_cons.1 hm with hm | hm
                · obtain ⟨hk, hc⟩ := Prod.mk.inj hm
                  subst hk
                  subst hc
                  exact ⟨fields, List.mem_cons_self _ _, hcn, hkc⟩
                · obtain ⟨f, hmm, hl, hne⟩ := (ih m0 hb).1 hm
                  exact ⟨f, List.mem_cons_of_mem _ hmm, hl, hne⟩
              · rintro ⟨f, hm, hl, hne⟩
                rcases List.mem_cons.1 hm with hm | hm
                · obtain ⟨hk, hff⟩ := Prod.mk.inj hm
                  cases AttrDecl.objDecl.inj hff
                  rw [hcn] at hl
                  cases Option.some.inj hl
                  subst hk
                  exact List.mem_cons_self _ _
                · exact List.mem_cons_of_mem _ ((ih m0 hb).2 ⟨f, hm, hl, hne⟩)
        | vUndef => dsimp only at h; cases h
        | vNull => dsimp only at h; cases h
        | vBool b => dsimp only at h; cases h
        | vNum n => dsimp only at h; cases h
        | vDate sd => dsimp only at h; cases h
        | vObj o => dsimp only at h; cases h
        | vArr o => dsimp only at h; cases h

/-- Claim C7: map construction skips function and string declarations, throws
a synchronous configuration error exactly when an object declaration carries a
non-string `columnName` value, adds no entry when the column name equals the
attribute name, and otherwise registers the attribute-to-column pair.
Serialize and unserialize contain no throw site, so the error can only arise
at construction, never at call time. -/
theorem map_construction_behavior (attrs : List (String × AttrDecl)) :
    ((∃ e, buildTransformations attrs = .error e) ↔
      ∃ k f v, (k, AttrDecl.objDecl f) ∈ attrs ∧ lookupF f "columnName" = some v ∧
        isStrV v = false) ∧
    (∀ m, buildTransformations attrs = .ok m → ∀ k c,
      ((k, c) ∈ m ↔ ∃ f, (k, AttrDecl.objDecl f) ∈ attrs ∧
        lookupF f "columnName" = some (JVal.vStr c) ∧ k ≠ c)) :=
  ⟨buildTransformations_error_iff attrs,
    fun m h k c => buildTransformations_ok_mem attrs m h k c⟩

/-- A concrete collection: `fullName` mapped to column `full_name`, `age` a
string shorthand. -/
def exAttrsC7 : List (String × AttrDecl) :=
  [("fullName", .objDecl [("columnName", JVal.vStr "full_name"), ("type", JVal.vStr "string")]),
   ("age", .strDecl "integer")]

theorem map_construction_behavior_witness :
    ("fullName", "full_name") ∈ [("fullName", "full_name")] ↔
      ∃ f, ("fullName", AttrDecl.objDecl f) ∈ exAttrsC7 ∧
        lookupF f "columnName" = some (JVal.vStr "full_name") ∧
        "fullName" ≠ "full_name" :=
  (map_construction_behavior exAttrsC7).2 [("fullName", "full_name")] rfl
    "fullName" "full_name"

/-! ### Claims C5 and C6: the recursive where-tree rewrite -/

/-- The key a property ends up under: its column name when mapped, itself
otherwise. -/
def renamedKey (trans : List (String × String)) (p : String) : String :=
  (lookupS trans p).getD p

/-- Claim C5: when the property being processed is `or` or `and` and its value
is an array (a logical node of a `where` tree), the step recurses into each
child of the array in place and never renames the operator key itself: the
result stores the recursively serialized children back under the same key and
the key set of the object is unchanged.  This is the single processing path
criteria mode applies to `and`/`or` nodes at every level of the tree. -/
theorem serialize_or_and_no_rename (trans : List (String × String))
    (attrs : List (String × AttrDecl)) (d : Nat) (f : JObj) (p : String)
    (l : JObj) (pa : Option AttrDecl)
    (hop : p = "or" ∨ p = "and") (hv : lookupF f p = some (JVal.vArr l)) :
    serStepH trans attrs (serFuel trans attrs d) f p pa =
      (setF f p (JVal.vArr (serFuel trans attrs d l
          (resolveParentAttr attrs trans p pa))),
        resolveParentAttr attrs trans p pa) ∧
    keysF (serStepH trans attrs (serFuel trans attrs d) f p pa).1 = keysF f := by
  have hstep : serStepH trans attrs (serFuel trans attrs d) f p pa =
      (setF f p (JVal.vArr (serFuel trans attrs d l
          (resolveParentAttr attrs trans p pa))),
        resolveParentAttr attrs trans p pa) := by
    simp only [serStepH, hv]
    rw [if_pos (show isArrV (JVal.vArr l) = true ∧ (p = "or" ∨ p = "and") from
      ⟨rfl, hop⟩)]
  refine ⟨hstep, ?_⟩
  rw [hstep]
  exact keysF_setF_of_mem f p _ (mem_keysF_of_lookupF f p _ hv)

/-- Claim C6: during serialize, (a) a textual leaf governed by a `date` or
`datetime` typed attribute is replaced (under its possibly renamed key) by the
parsed date value, and (b) the value of a leaf governed by a `json` typed
attribute is carried over untouched — its contents are never traversed or
renamed — even though the leaf key itself may be renamed. -/
theorem serialize_date_cast_and_json_untouched (trans : List (String × String))
    (attrs : List (String × AttrDecl)) (d : Nat) (f : JObj) (p : String)
    (pa : Option AttrDecl) :
    (∀ s, lookupF f p = some (JVal.vStr s) →
      (typeTag (resolveParentAttr attrs trans p pa) = some "date" ∨
       typeTag (resolveParentAttr attrs trans p pa) = some "datetime") →
      lookupF (serStepH trans attrs (serFuel trans attrs d) f p pa).1
        (renamedKey trans p) = some (JVal.vDate s)) ∧
    (∀ o, lookupF f p = some (JVal.vObj o) →
      typeTag (resolveParentAttr attrs trans p pa) = some "json" →
      lookupF (serStepH trans attrs (serFuel trans attrs d) f p pa).1
        (renamedKey trans p) = some (JVal.vObj o)) := by
  constructor
  · intro s hv hdate
    simp only [serStepH, hv]
    rw [if_neg (show ¬(isArrV (JVal.vStr s) = true ∧ (p = "or" ∨ p = "and")) from
      fun h => by cases h.1)]
    rw [if_neg (show ¬(typeTag (resolveParentAttr attrs trans p pa) ≠ some "json" ∧
        isPlainObj (JVal.vStr s) = true) from fun h => by cases h.2)]
    cases hc : lookupS trans p with
    | some c =>
      dsimp only
      rw [lookupF_setF_self]
      dsimp only
      rcases hdate with hd | hd <;>
        · rw [hd]
          rw [if_pos (by simp)]
          rw [renamedKey, hc]
          exact lookupF_setF_self _ _ _
    | none =>
      dsimp only
      rw [hv]
      dsimp only
      rcases hdate with hd | hd <;>
        · rw [hd]
          rw [if_pos (by simp)]
          rw [renamedKey, hc]
          exact lookupF_setF_self _ _ _
  · intro o hv hjson
    simp only [serStepH, hv]
    rw [if_neg (show ¬(isArrV (JVal.vObj o) = true ∧ (p = "or" ∨ p = "and")) from
      fun h => by cases h.1)]
    rw [if_neg (show ¬(typeTag (resolveParentAttr attrs trans p pa) ≠ some "json" ∧
        isPlainObj (JVal.vObj o) = true) from fun h => (h.1 hjson).elim)]
    cases hc : lookupS trans p with
    | some c =>
      dsimp only
      rw [lookupF_setF_self]
      dsimp only
      rw [renamedKey, hc]
      exact lookupF_setF_self _ _ _
    | none =>
      dsimp only
      rw [hv]
      dsimp only
      rw [renamedKey, hc]
      simpa using hv

def exTransNames : List (String × String) := [("fullName", "full_name")]

def exOrChildren : JObj :=
  [("0", JVal.vObj [("fullName", JVal.vStr "x")]), ("1", JVal.vObj [("age", JVal.vNum 30)])]

def exWhereOr : JObj := [("or", JVal.vArr exOrChildren), ("fullName", JVal.vStr "y")]

theorem serialize_or_and_no_rename_witness :
    serStepH exTransNames exAttrsC7 (serFuel exTransNames exAttrsC7 2) exWhereOr "or" none =
      (setF exWhereOr "or" (JVal.vArr (serFuel exTransNames exAttrsC7 2 exOrChildren
          (resolveParentAttr exAttrsC7 exTransNames "or" none))),
        resolveParentAttr exAttrsC7 exTransNames "or" none) ∧
    keysF (serStepH exTransNames exAttrsC7 (serFuel exTransNames exAttrsC7 2)
        exWhereOr "or" none).1 = keysF exWhereOr :=
  serialize_or_and_no_rename exTransNames exAttrsC7 2 exWhereOr "or" exOrChildren none
    (Or.inl rfl) rfl

def exAttrsC6 : List (String × AttrDecl) :=
  [("born", .objDecl [("type", JVal.vStr "datetime"), ("columnName", JVal.vStr "born_on")]),
   ("payload", .objDecl [("type", JVal.vStr "json")])]

def exTransC6 : List (String × String) := [("born", "born_on")]

theorem serialize_date_cast_and_json_untouched_witness :
    lookupF (serStepH exTransC6 exAttrsC6 (serFuel exTransC6 exAttrsC6 1)
        [("born", JVal.vStr "2020-01-02")] "born" none).1
      (renamedKey exTransC6 "born") = some (JVal.vDate "2020-01-02") ∧
    lookupF (serStepH exTransC6 exAttrsC6 (serFuel exTransC6 exAttrsC6 1)
        [("payload", JVal.vObj [("a", JVal.vNum 1)])] "payload" none).1
      (renamedKey exTransC6 "payload") = some (JVal.vObj [("a", JVal.vNum 1)]) :=
  ⟨(serialize_date_cast_and_json_untouched exTransC6 exAttrsC6 1
      [("born", JVal.vStr "2020-01-02")] "born" none).1 "2020-01-02" rfl (Or.inr rfl),
   (serialize_date_cast_and_json_untouched exTransC6 exAttrsC6 1
      [("payload", JVal.vObj [("a", JVal.vNum 1)])] "payload" none).2
     [("a", JVal.vNum 1)] rfl rfl⟩

/-! ### Claim C1: value-mode round trip -/

theorem lookupF_mem (o : JObj) (q : String) (v : JVal)
    (h : lookupF o q = some v) : (q, v) ∈ o := by
  induction o with
  | nil => cases h
  | cons kv rest ih =>
    obtain ⟨k1, v1⟩ := kv
    by_cases hk : k1 = q
    · subst hk
      rw [lookupF, if_pos rfl] at h
      cases Option.some.inj h
      exact List.mem_cons_self _ _
    · rw [lookupF, if_neg hk] at h
      exact List.mem_cons_of_mem _ (ih h)

theorem lookupS_mem (t : List (String × String)) (k c : String)
    (h : lookupS t k = some c) : (k, c) ∈ t := by
  induction t with
  | nil => cases h
  | cons kv rest ih =>
    obtain ⟨k1, c1⟩ := kv
    by_cases hk : k1 = k
    · subst hk
      rw [lookupS, if_pos rfl] at h
      cases Option.some.inj h
      exact List.mem_cons_self _ _
    · rw [lookupS, if_neg hk] at h
      exact List.mem_cons_of_mem _ (ih h)

theorem lookupS_of_mem_nodup (t : List (String × String)) (k c : String)
    (hn : (t.map Prod.fst).Nodup) (h : (k, c) ∈ t) : lookupS t k = some c := by
  induction t with
  | nil => cases h
  | cons kv rest ih =>
    obtain ⟨k1, c1⟩ := kv
    rcases List.mem_cons.1 h with h | h
    · obtain ⟨hk, hc⟩ := Prod.mk.inj h
      subst hk
      subst hc
      rw [lookupS, if_pos rfl]
    · have hk1 : k1 ≠ k := by
        intro hk
        subst hk
        exact (List.nodup_cons.1 hn).1 (List.mem_map.2 ⟨(k1, c), h, rfl⟩)
      rw [lookupS, if_neg hk1]
      exact ih (List.nodup_cons.1 hn).2 h

/-- The values a transformation key maps a primitive-valued property to: the
processing a leaf receives from `serStepH` when no date cast applies. -/
theorem serStepH_prim (trans : List (String × String))
    (attrs : List (String × AttrDecl)) (child : JObj → Option AttrDecl → JObj)
    (st : JObj) (p : String) (pa : Option AttrDecl) (v : JVal)
    (hv : lookupF st p = some v)
    (hobj : isPlainObj v = false) (harr : isArrV v = false)
    (hnc : ∀ s, v = JVal.vStr s → ∃ dcl, lookupTruthyAttr attrs p = some dcl ∧
      typeTag (some dcl) ≠ some "date" ∧ typeTag (some dcl) ≠ some "datetime") :
    serStepH trans attrs child st p pa =
      ((match lookupS trans p with
        | some c => setF (delF st p) c v
        | none => st), resolveParentAttr attrs trans p pa) := by
  simp only [serStepH, hv]
  rw [if_neg (show ¬(isArrV v = true ∧ (p = "or" ∨ p = "and")) from
    fun h => by rw [harr] at h; cases h.1)]
  rw [if_neg (show ¬(typeTag (resolveParentAttr attrs trans p pa) ≠ some "json" ∧
      isPlainObj v = true) from fun h => by rw [hobj] at h; cases h.2)]
  cases hc : lookupS trans p with
  | some c =>
    dsimp only
    rw [lookupF_setF_self]
    cases v with
    | vStr s =>
      obtain ⟨dcl, hdcl, hd1, hd2⟩ := hnc s rfl
      have hres : resolveParentAttr attrs trans p pa = some dcl := by
        rw [resolveParentAttr, hdcl]
      rw [hres]
      dsimp only
      rw [if_neg (show ¬(typeTag (some dcl) = some "date" ∨
          typeTag (some dcl) = some "datetime") from fun h => h.elim hd1 hd2)]
    | vUndef => rfl
    | vNull => rfl
    | vBool b => rfl
    | vNum n => rfl
    | vDate sd => rfl
    | vObj o => rfl
    | vArr o => rfl
  | none =>
    dsimp only
    rw [hv]
    cases v with
    | vStr s =>
      obtain ⟨dcl, hdcl, hd1, hd2⟩ := hnc s rfl
      have hres : resolveParentAttr attrs trans p pa = some dcl := by
        rw [resolveParentAttr, hdcl]
      rw [hres]
      dsimp only
      rw [if_neg (show ¬(typeTag (some dcl) = some "date" ∨
          typeTag (some dcl) = some "datetime") from fun h => h.elim hd1 hd2)]
    | vUndef => rfl
    | vNull => rfl
    | vBool b => rfl
    | vNum n => rfl
    | vDate sd => rfl
    | vObj o => rfl
    | vArr o => rfl

/-- Lookup characterization of the serialize key loop on an object whose
processed properties hold primitive, uncast values: a mapped property moves
its value under the column key, an unmapped one is left alone, and nothing
else is touched. -/
theorem serLoop_prim_lookup (trans : List (String × String))
    (attrs : List (String × AttrDecl)) (child : JObj → Option AttrDecl → JObj) :
    ∀ (ps : List String) (st : JObj) (pa : Option AttrDecl),
    ps.Nodup →
    (∀ p ∈ ps, ∃ v, lookupF st p = some v ∧ isPlainObj v = false ∧ isArrV v = false ∧
      (∀ s, v = JVal.vStr s → ∃ dcl, lookupTruthyAttr attrs p = some dcl ∧
        typeTag (some dcl) ≠ some "date" ∧ typeTag (some dcl) ≠ some "datetime")) →
    (∀ p ∈ ps, ∀ c, lookupS trans p = some c → lookupF st c = none ∧ c ∉ ps) →
    (∀ p ∈ ps, ∀ p' ∈ ps, p ≠ p' → ∀ c c', lookupS trans p = some c →
      lookupS trans p' = some c' → c ≠ c') →
    (∀ p ∈ ps, ∀ c, lookupS trans p = some c →
        lookupF (serLoop trans attrs child st ps pa) c = lookupF st p) ∧
    (∀ p ∈ ps, (lookupS trans p).isSome = true →
        lookupF (serLoop trans attrs child st ps pa) p = none) ∧
    (∀ q, (q ∈ ps → lookupS trans q = none) →
        (∀ p ∈ ps, lookupS trans p ≠ some q) →
        lookupF (serLoop trans attrs child st ps pa) q = lookupF st q) := by
  intro ps
  induction ps with
  | nil =>
    intro st pa _ _ _ _
    refine ⟨?_, ?_, ?_⟩
    · intro p hp
      cases hp
    · intro p hp
      cases hp
    · intro q _ _
      rfl
  | cons p rest ih =>
    intro st pa h1 h2 h3 h4
    have hpnr : p ∉ rest := (List.nodup_cons.1 h1).1
    obtain ⟨v, hv, hobj, harr, hnc⟩ := h2 p (List.mem_cons_self _ _)
    have hstep := serStepH_prim trans attrs child st p pa v hv hobj harr hnc
    have hloop : serLoop trans attrs child st (p :: rest) pa =
        serLoop trans attrs child
          (match lookupS trans p with
            | some c => setF (delF st p) c v
            | none => st) rest (resolveParentAttr attrs trans p pa) := by
      rw [serLoop, hstep]
    cases hc : lookupS trans p with
    | none =>
      rw [hc] at hloop
      have ihr := ih st (resolveParentAttr attrs trans p pa)
        (List.nodup_cons.1 h1).2
        (fun p' hp' => h2 p' (List.mem_cons_of_mem _ hp'))
        (fun p' hp' c' hc' => by
          obtain ⟨ha, hb⟩ := h3 p' (List.mem_cons_of_mem _ hp') c' hc'
          exact ⟨ha, fun hcr => hb (List.mem_cons_of_mem _ hcr)⟩)
        (fun a ha b hb hne c c' hcc hcc' =>
          h4 a (List.mem_cons_of_mem _ ha) b (List.mem_cons_of_mem _ hb) hne c c' hcc hcc')
      obtain ⟨ia, ib, ic⟩ := ihr
      refine ⟨?_, ?_, ?_⟩
      · intro p0 hp0 c0 hc0
        rcases List.mem_cons.1 hp0 with hp0 | hp0
        · subst hp0
          rw [hc] at hc0
          cases hc0
        · rw [hloop]
          exact ia p0 hp0 c0 hc0
      · intro p0 hp0 hs0
        rcases List.mem_cons.1 hp0 with hp0 | hp0
        · subst hp0
          rw [hc] at hs0
          cases hs0
        · rw [hloop]
          exact ib p0 hp0 hs0
      · intro q hq1 hq2
        rw [hloop]
        exact ic q (fun hqr => hq1 (List.mem_cons_of_mem _ hqr))
          (fun p' hp' => hq2 p' (List.mem_cons_of_mem _ hp'))
    | some c =>
      rw [hc] at hloop
      obtain ⟨hcnone, hcnotin⟩ := h3 p (List.mem_cons_self _ _) c hc
      have hcp : c ≠ p := fun hcp => hcnotin (hcp ▸ List.mem_cons_self _ _)
      have hcrest : c ∉ rest := fun hcr => hcnotin (List.mem_cons_of_mem _ hcr)
      -- the state after processing p
      set st' := setF (delF st p) c v with hst'
      have hst'c : lookupF st' c = some v := lookupF_setF_self _ _ _
      have hst'p : lookupF st' p = none := by
        rw [hst', lookupF_setF_ne _ _ _ _ (Ne.symm hcp), lookupF_delF_self]
      have hst'other : ∀ q, q ≠ c → q ≠ p → lookupF st' q = lookupF st q := by
        intro q hqc hqp
        rw [hst', lookupF_setF_ne _ _ _ _ hqc, lookupF_delF_ne _ _ _ hqp]
      have ihr := ih st' (resolveParentAttr attrs trans p pa)
        (List.nodup_cons.1 h1).2
        (fun p' hp' => by
          have hp'p : p' ≠ p := fun hpe => hpnr (hpe ▸ hp')
          have hp'c : p' ≠ c := fun hpe => hcrest (hpe ▸ hp')
          obtain ⟨v', hv', ho', ha', hn'⟩ := h2 p' (List.mem_cons_of_mem _ hp')
          exact ⟨v', (hst'other p' hp'c hp'p).trans hv', ho', ha', hn'⟩)
        (fun p' hp' c' hc' => by
          obtain ⟨ha, hb⟩ := h3 p' (List.mem_cons_of_mem _ hp') c' hc'
          have hp'p : p' ≠ p := fun hpe => hpnr (hpe ▸ hp')
          have hc'c : c' ≠ c :=
            h4 p' (List.mem_cons_of_mem _ hp') p (List.mem_cons_self _ _)
              hp'p c' c hc' hc
          have hc'p : c' ≠ p := fun hpe =>
            hb (hpe ▸ List.mem_cons_self _ _)
          refine ⟨(hst'other c' hc'c hc'p).trans ha, fun hcr => hb (List.mem_cons_of_mem _ hcr)⟩)
        (fun a ha b hb hne c0 c0' hcc hcc' =>
          h4 a (List.mem_cons_of_mem _ ha) b (List.mem_cons_of_mem _ hb) hne c0 c0' hcc hcc')
      obtain ⟨ia, ib, ic⟩ := ihr
      refine ⟨?_, ?_, ?_⟩
      · intro p0 hp0 c0 hc0
        rcases List.mem_cons.1 hp0 with hp0 | hp0
        · subst hp0
          rw [hc] at hc0
          cases Option.some.inj hc0
          rw [hloop]
          have := ic c (fun hcr => absurd hcr hcrest)
            (fun p' hp' heq =>
              (h4 p0 (List.mem_cons_self _ _) p' (List.mem_cons_of_mem _ hp')
                (fun hpe => hpnr (hpe ▸ hp')) c c hc heq) rfl)
          rw [this, hst'c, hv]
        · rw [hloop]
          have hp0p : p0 ≠ p := fun hpe => hpnr (hpe ▸ hp0)
          have hp0c : p0 ≠ c := fun hpe => hcrest (hpe ▸ hp0)
          rw [ia p0 hp0 c0 hc0]
          exact hst'other p0 hp0c hp0p
      · intro p0 hp0 hs0
        rcases List.mem_cons.1 hp0 with hp0 | hp0
        · subst hp0
          rw [hloop]
          have := ic p0 (fun hpr => absurd hpr hpnr)
            (fun p' hp' heq => by
              obtain ⟨_, hnb⟩ := h3 p' (List.mem_cons_of_mem _ hp') p0 heq
              exact hnb (List.mem_cons_self _ _))
          rw [this, hst'p]
        · rw [hloop]
          exact ib p0 hp0 hs0
      · intro q hq1 hq2
        rw [hloop]
        have hqc : q ≠ c := fun hqe => (hq2 p (List.mem_cons_self _ _)) (hqe ▸ hc)
        have hqp : q ≠ p := fun hqe => by
          have h0 := hq1 (hqe ▸ List.mem_cons_self _ _)
          rw [hqe] at h0
          rw [h0] at hc
          exact Option.noConfusion hc
        rw [ic q (fun hqr => hq1 (List.mem_cons_of_mem _ hqr))
          (fun p' hp' => hq2 p' (List.mem_cons_of_mem _ hp'))]
        exact hst'other q hqc hqp

/-- Lookup characterization of the unserialize loop: for every map entry whose
column is present in the row, the attribute key receives the column value and
the column key is deleted; everything else is untouched. -/
theorem unserGo_lookup (trans : List (String × String)) (row : JObj)
    (hkn : (trans.map Prod.fst).Nodup) (hcn : (trans.map Prod.snd).Nodup)
    (hkc : ∀ kc ∈ trans, ∀ kc' ∈ trans, kc.1 ≠ kc'.2) :
    ∀ st : JObj,
    (∀ k c v, (k, c) ∈ trans → lookupF row c = some v →
        lookupF (unserGo trans row st) k = some v) ∧
    (∀ k c, (k, c) ∈ trans → (lookupF row c).isSome = true →
        lookupF (unserGo trans row st) c = none) ∧
    (∀ q, (∀ kc ∈ trans, q ≠ kc.1 ∧ q ≠ kc.2) →
        lookupF (unserGo trans row st) q = lookupF st q) := by
  induction trans with
  | nil =>
    intro st
    refine ⟨?_, ?_, ?_⟩
    · intro k c v hm
      cases hm
    · intro k c hm
      cases hm
    · intro q _
      rfl
  | cons kc0 rest ih =>
    obtain ⟨k, c⟩ := kc0
    have hknr : (rest.map Prod.fst).Nodup := (List.nodup_cons.1 hkn).2
    have hcnr : (rest.map Prod.snd).Nodup := (List.nodup_cons.1 hcn).2
    have hkcr : ∀ kc ∈ rest, ∀ kc' ∈ rest, kc.1 ≠ kc'.2 :=
      fun a ha b hb => hkc a (List.mem_cons_of_mem _ ha) b (List.mem_cons_of_mem _ hb)
    have ihr := ih hknr hcnr hkcr
    have hknotr : k ∉ rest.map Prod.fst := (List.nodup_cons.1 hkn).1
    have hcnotr : c ∉ rest.map Prod.snd := (List.nodup_cons.1 hcn).1
    have hkc0 : k ≠ c :=
      hkc (k, c) (List.mem_cons_self _ _) (k, c) (List.mem_cons_self _ _)
    intro st
    cases hrow : lookupF row c with
    | none =>
      have hgo : unserGo ((k, c) :: rest) row st = unserGo rest row st := by
        rw [unserGo, hrow]
      obtain ⟨ia, ib, ic⟩ := ihr st
      refine ⟨?_, ?_, ?_⟩
      · intro k0 c0 v0 hm hl
        rcases List.mem_cons.1 hm with hm | hm
        · obtain ⟨hk0, hc0⟩ := Prod.mk.inj hm
          subst hk0
          subst hc0
          rw [hrow] at hl
          cases hl
        · rw [hgo]
          exact ia k0 c0 v0 hm hl
      · intro k0 c0 hm hs
        rcases List.mem_cons.1 hm with hm | hm
        · obtain ⟨hk0, hc0⟩ := Prod.mk.inj hm
          subst hk0
          subst hc0
          rw [hrow] at hs
          cases hs
        · rw [hgo]
          exact ib k0 c0 hm hs
      · intro q hq
        rw [hgo]
        exact ic q (fun kc' hkc' => hq kc' (List.mem_cons_of_mem _ hkc'))
    | some v =>
      have hgo : unserGo ((k, c) :: rest) row st =
          unserGo rest row (delF (setF st k v) c) := by
        rw [unserGo, hrow]
        dsimp only
        rw [if_pos (Ne.symm hkc0)]
      set st' := delF (setF st k v) c with hst'
      have hst'k : lookupF st' k = some v := by
        rw [hst', lookupF_delF_ne _ _ _ hkc0, lookupF_setF_self]
      have hst'c : lookupF st' c = none := by
        rw [hst', lookupF_delF_self]
      have hst'other : ∀ q, q ≠ k → q ≠ c → lookupF st' q = lookupF st q := by
        intro q hqk hqc
        rw [hst', lookupF_delF_ne _ _ _ hqc, lookupF_setF_ne _ _ _ _ hqk]
      obtain ⟨ia, ib, ic⟩ := ihr st'
      refine ⟨?_, ?_, ?_⟩
      · intro k0 c0 v0 hm hl
        rcases List.mem_cons.1 hm with hm | hm
        · obtain ⟨hk0, hc0⟩ := Prod.mk.inj hm
          subst hk0
          subst hc0
          rw [hrow] at hl
          cases Option.some.inj hl
          rw [hgo]
          have := ic k0 (fun kc' hkc' => by
            constructor
            · intro hke
              exact hknotr (hke ▸ List.mem_map.2 ⟨kc', hkc', rfl⟩)
            · exact hkc (k0, c0) (List.mem_cons_self _ _) kc' (List.mem_cons_of_mem _ hkc'))
          rw [this, hst'k]
        · rw [hgo]
          exact ia k0 c0 v0 hm hl
      · intro k0 c0 hm hs
        rcases List.mem_cons.1 hm with hm | hm
        · obtain ⟨hk0, hc0⟩ := Prod.mk.inj hm
          subst hk0
          subst hc0
          rw [hgo]
          have := ic c0 (fun kc' hkc' => by
            constructor
            · exact Ne.symm (hkc kc' (List.mem_cons_of_mem _ hkc')
                (k0, c0) (List.mem_cons_self _ _))
            · intro hce
              exact hcnotr (hce ▸ List.mem_map.2 ⟨kc', hkc', rfl⟩))
          rw [this, hst'c]
        · rw [hgo]
          exact ib k0 c0 hm hs
      · intro q hq
        rw [hgo]
        obtain ⟨hqk, hqc⟩ := hq (k, c) (List.mem_cons_self _ _)
        rw [ic q (fun kc' hkc' => hq kc' (List.mem_cons_of_mem _ hkc'))]
        exact hst'other q hqk hqc

/-- Property read on a serialized or unserialized result value. -/
def lookupJ : JVal → String → Option JVal
  | .vObj o, q => lookupF o q
  | .vArr o, q => lookupF o q
  | _, _ => none

theorem jobjSize_succ (o : JObj) : ∃ d, jobjSize o = Nat.succ d := by
  cases o with
  | nil => exact ⟨0, rfl⟩
  | cons kv rest =>
    obtain ⟨k1, v1⟩ := kv
    exact ⟨jvalSize v1 + jobjSize rest, by rw [jobjSize]; omega⟩

/-- Claim C1 (amended): for a fully populated record of primitive, non-date
values, serializing in value mode and unserializing restores every key-value
binding — provided the column names are pairwise distinct and none of them
collides with an attribute name present in the record.  Without those two
side conditions the round trip fails (see the counterexample). -/
theorem serialize_unserialize_roundtrip (trans : List (String × String))
    (attrs : List (String × AttrDecl)) (r : JObj)
    (hrk : (keysF r).Nodup)
    (htk : (trans.map Prod.fst).Nodup)
    (hti : (trans.map Prod.snd).Nodup)
    (hdisj : ∀ c ∈ trans.map Prod.snd, c ∉ keysF r)
    (hdom : ∀ kc ∈ trans, kc.1 ∈ keysF r)
    (hprim : ∀ kv ∈ r, isPlainObj kv.2 = false ∧ isArrV kv.2 = false)
    (hnc : ∀ kv ∈ r, ∀ s, kv.2 = JVal.vStr s →
      ∃ dcl, lookupTruthyAttr attrs kv.1 = some dcl ∧
        typeTag (some dcl) ≠ some "date" ∧ typeTag (some dcl) ≠ some "datetime")
    (hwhere : lookupF r "where" = none) :
    ∀ q, lookupJ (unserializeJ trans (serializeJ trans attrs (.vObj r) none)) q =
      lookupF r q := by
  -- value mode: behavior is unset and the record has no `where` key
  have hser : serializeJ trans attrs (.vObj r) none =
      .vObj (serFuel trans attrs (jobjSize r) r none) := by
    simp only [serializeJ, hwhere, serializeValues]
  obtain ⟨d, hd⟩ := jobjSize_succ r
  have hfuel : serFuel trans attrs (jobjSize r) r none =
      serLoop trans attrs (fun o2 pa2 => serFuel trans attrs d o2 pa2) r (keysF r) none := by
    rw [hd, serFuel]
  -- the serialize loop characterization
  have hinj : ∀ p ∈ keysF r, ∀ p' ∈ keysF r, p ≠ p' → ∀ c c',
      lookupS trans p = some c → lookupS trans p' = some c' → c ≠ c' := by
    intro p _ p' _ hne c c' hc hc' hcc
    subst hcc
    exact hne (congrArg Prod.fst (List.inj_on_of_nodup_map hti
      (lookupS_mem trans p c hc) (lookupS_mem trans p' c hc') rfl))
  obtain ⟨ia, ib, ic⟩ := serLoop_prim_lookup trans attrs
    (fun o2 pa2 => serFuel trans attrs d o2 pa2) (keysF r) r none hrk
    (fun p hp => by
      obtain ⟨v, hv⟩ := Option.isSome_iff_exists.1 ((lookupF_isSome_iff_mem r p).2 hp)
      have hmem := lookupF_mem r p v hv
      exact ⟨v, hv, (hprim (p, v) hmem).1, (hprim (p, v) hmem).2,
        fun s hs => hnc (p, v) hmem s hs⟩)
    (fun p hp c hc => by
      have hci : c ∈ trans.map Prod.snd :=
        List.mem_map.2 ⟨(p, c), lookupS_mem trans p c hc, rfl⟩
      exact ⟨lookupF_eq_none_of_not_mem r c (hdisj c hci), hdisj c hci⟩)
    hinj
  set SR := serLoop trans attrs (fun o2 pa2 => serFuel trans attrs d o2 pa2)
    r (keysF r) none with hSR
  -- the unserialize characterization
  obtain ⟨ua, ub, uc⟩ := unserGo_lookup trans SR htk hti
    (fun kc hm kc' hm' => fun heq =>
      hdisj kc'.2 (List.mem_map.2 ⟨kc', hm', rfl⟩) (heq ▸ hdom kc hm)) SR
  intro q
  have hfinal : lookupJ (unserializeJ trans (serializeJ trans attrs (.vObj r) none)) q =
      lookupF (unserGo trans SR SR) q := by
    rw [hser, hfuel]
    rfl
  rw [hfinal]
  cases hq : lookupS trans q with
  | some c =>
    -- a mapped attribute: its value went to column c and came back
    have hqmem : (q, c) ∈ trans := lookupS_mem trans q c hq
    have hqkeys : q ∈ keysF r := hdom (q, c) hqmem
    obtain ⟨vq, hvq⟩ := Option.isSome_iff_exists.1 ((lookupF_isSome_iff_mem r q).2 hqkeys)
    have hsrc : lookupF SR c = some vq := by
      rw [ia q hqkeys c hq, hvq]
    rw [ua q c vq hqmem hsrc, hvq]
  | none =>
    by_cases hqi : q ∈ trans.map Prod.snd
    · -- a column name: it was populated by serialize and deleted by unserialize
      obtain ⟨kc, hkc, hc⟩ := List.mem_map.1 hqi
      have hmemq : (kc.1, q) ∈ trans := hc ▸ hkc
      have hlq : lookupS trans kc.1 = some q :=
        lookupS_of_mem_nodup trans kc.1 q htk hmemq
      have hkkeys : kc.1 ∈ keysF r := hdom kc hkc
      obtain ⟨vk, hvk⟩ :=
        Option.isSome_iff_exists.1 ((lookupF_isSome_iff_mem r kc.1).2 hkkeys)
      have hsrq : lookupF SR q = some vk := by
        rw [ia kc.1 hkkeys q hlq, hvk]
      rw [ub kc.1 q hmemq (by rw [hsrq]; rfl)]
      rw [lookupF_eq_none_of_not_mem r q (hdisj q hqi)]
    · -- untouched on both sides
      have hu := uc q (fun kc hm => by
        constructor
        · intro hqk
          rw [hqk] at hq
          rw [lookupS_of_mem_nodup trans kc.1 kc.2 htk hm] at hq
          cases hq
        · intro hqc
          exact hqi (List.mem_map.2 ⟨kc, hm, hqc.symm ▸ rfl⟩))
      rw [hu]
      exact ic q (fun _ => hq) (fun p _ hps =>
        hqi (List.mem_map.2 ⟨(p, q), lookupS_mem trans p q hps, rfl⟩))

def recRoundtrip : JObj := [("fullName", JVal.vStr "Ann"), ("age", JVal.vNum 30)]

theorem serialize_unserialize_roundtrip_witness :
    lookupJ (unserializeJ exTransNames (serializeJ exTransNames exAttrsC7
        (.vObj recRoundtrip) none)) "fullName" = lookupF recRoundtrip "fullName" ∧
    lookupJ (unserializeJ exTransNames (serializeJ exTransNames exAttrsC7
        (.vObj recRoundtrip) none)) "age" = lookupF recRoundtrip "age" ∧
    lookupJ (unserializeJ exTransNames (serializeJ exTransNames exAttrsC7
        (.vObj recRoundtrip) none)) "full_name" = lookupF recRoundtrip "full_name" := by
  have happ := serialize_unserialize_roundtrip exTransNames exAttrsC7 recRoundtrip
    (by decide) (by decide) (by decide) (by decide)
    (by
      intro kc hkc
      rcases List.mem_cons.1 hkc with h | h
      · rw [h]
        decide
      · cases h)
    (by
      intro kv hkv
      rcases List.mem_cons.1 hkv with h | h
      · rw [h]
        exact ⟨rfl, rfl⟩
      · rcases List.mem_cons.1 h with h2 | h2
        · rw [h2]
          exact ⟨rfl, rfl⟩
        · cases h2)
    (by
      intro kv hkv s hs
      rcases List.mem_cons.1 hkv with h | h
      · refine ⟨AttrDecl.objDecl [("columnName", JVal.vStr "full_name"),
          ("type", JVal.vStr "string")], ?_, by decide, by decide⟩
        rw [h]
        rfl
      · rcases List.mem_cons.1 h with h2 | h2
        · rw [h2] at hs
          exact absurd hs (by simp)
        · cases h2)
    rfl
  exact ⟨happ "fullName", happ "age", happ "full_name"⟩

/-- A collection where the column name of one attribute collides with the
name of another attribute. -/
def attrsCollide : List (String × AttrDecl) :=
  [("a", .objDecl [("columnName", JVal.vStr "b")]),
   ("b", .objDecl [("type", JVal.vStr "string")])]

def recCollide : JObj := [("a", JVal.vNum 1), ("b", JVal.vNum 2)]

/-- Claim C1, counterexample: with the map built by the source from
`attrsCollide` (attribute `a` stored in column `b`), the fully populated
record `{a: 1, b: 2}` of primitive non-date values does not round trip:
serializing deletes `a` and writes its value 1 onto the existing key `b`
(clobbering b's 2), so serialize yields `{b: 1}`; unserializing moves that
value back under `a` and deletes `b`, returning `{a: 1}` — the key `b` and
its original value 2 are lost, while `a`'s value 1 survives. -/
theorem serialize_unserialize_roundtrip_counterexample :
    buildTransformations attrsCollide = .ok [("a", "b")] ∧
    lookupF recCollide "b" = some (JVal.vNum 2) ∧
    serializeJ [("a", "b")] attrsCollide (.vObj recCollide) none =
      .vObj [("b", JVal.vNum 1)] ∧
    unserializeJ [("a", "b")] (serializeJ [("a", "b")] attrsCollide
        (.vObj recCollide) none) = .vObj [("a", JVal.vNum 1)] ∧
    lookupJ (unserializeJ [("a", "b")] (serializeJ [("a", "b")] attrsCollide
        (.vObj recCollide) none)) "b" = none ∧
    lookupJ (unserializeJ [("a", "b")] (serializeJ [("a", "b")] attrsCollide
        (.vObj recCollide) none)) "b" ≠ lookupF recCollide "b" := by
  refine ⟨rfl, rfl, rfl, rfl, rfl, ?_⟩
  intro h
  rw [show lookupJ (unserializeJ [("a", "b")] (serializeJ [("a", "b")] attrsCollide
      (.vObj recCollide) none)) "b" = none from rfl] at h
  rw [show lookupF recCollide "b" = some (JVal.vNum 2) from rfl] at h
  exact Option.noConfusion h

/-!
### The creation pipeline (lib/offshore/query/dql/create.js)

One `create` invocation is embedded as a deterministic function from the
collection's configuration and the collaborator outcomes (`CreateCtx`), the
values object produced by `processValues` (`VObject`), and the optional
`metaContainer`, to a result and the trace of collaborator calls (`Ev`).
Collaborator calls are synchronous in the embedding; `async.each` dispatches
every iterator before its final callback can fire, the final callback is
wrapped in `once` and receives the first error, and `async.series` runs its
tasks in order stopping at the first error — which the fold below mirrors. -/

/-- An error value; `err.model = self._model.globalId` annotation is the
`model` field (create.js lines 214-215 treat errors as objects). -/
structure JErr where
  tag : String
  model : Option String
deriving DecidableEq, Repr

/-- One collaborator call observable from within a `create` invocation. -/
inductive Ev where
  | evFindOrCreate : String → JObj → JVal → Option JVal → Ev
  | evCreate : String → JVal → Option JVal → Ev
  | evValidate : Ev
  | evBeforeCreate : Ev
  | evAdapterCreate : JObj → Option JVal → Ev
  | evNestedCreate : Ev
  | evAfterCreate : Ev

/-- A sibling collection as `createBelongsTo` uses it: its primary key name
and the outcome its `create`/`findOrCreate` query delivers. -/
structure TargetModel where
  primaryKey : String
  execRes : Except JErr JObj

/-- The collection configuration and collaborator outcomes one `create`
invocation runs against. -/
structure CreateCtx where
  trans : List (String × String)
  attrs : List (String × AttrDecl)
  schema : List (String × JObj)
  collections : List (String × TargetModel)
  autoCreatedAt : Option String
  autoUpdatedAt : Option String
  nowVal : JVal
  schemaCols : List String
  globalId : String
  validateRes : Option JErr
  beforeCreateRes : Option JErr
  afterCreateRes : Option JErr
  adapterRes : Except JErr JObj
  nestedRes : Option JErr

/-- The transient values object of one `create` call (see §3 of the design):
processed values plus the extracted belongsTo payloads (`associations.models`)
and hasMany payloads (`associations.collections`). -/
structure VObject where
  values : JObj
  models : JObj
  collectionsA : JObj

def lookupA {α : Type} : List (String × α) → String → Option α
  | [], _ => none
  | (k', a) :: rest, k => if k' = k then some a else lookupA rest k

/-- `if (metaContainer) query.meta(metaContainer)`: the context is attached to
a belongsTo query only when the function receives a truthy value. -/
def metaAttach (meta : Option JVal) : Option JVal :=
  match meta with
  | some m => if jsTruthy m then some m else none
  | none => none

/-- Outcome of one iteration of the `async.each` in `createBelongsTo`. -/
inductive BTOutcome where
  | skip : BTOutcome
  | failed : JErr → List Ev → BTOutcome
  | resolved : JVal → List Ev → BTOutcome

/-- One iteration of `createBelongsTo` (create.js lines 108-151) over the key
`item` of `associations.models`: skip non-object payloads, resolve the
attribute name through the transformation map, read the association target
from the schema (`model` overrides `collection` since the second `if`
overwrites), issue `findOrCreate(criteria, payload)` when the payload's value
under the target's primary key is truthy and `create(payload)` otherwise, and
deliver the resolved record's primary-key value.  A declared belongsTo
attribute always has a schema entry and its target collection is loaded, so
the embedding skips the configurations on which the source would fault. -/
def btItem (ctx : CreateCtx) (meta : Option JVal) (models : JObj)
    (item : String) : BTOutcome :=
  match lookupF models item with
  | some (.vObj payload) =>
    let attrName := (lookupS ctx.trans item).getD item
    match lookupA ctx.schema attrName with
    | none => .skip
    | some attrEntry =>
      let modelName? :=
        match lookupF attrEntry "model" with
        | some v => some v
        | none => lookupF attrEntry "collection"
      match modelName? with
      | some (.vStr m) =>
        if m = "" then .skip
        else
          match lookupA ctx.collections m with
          | none => .skip
          | some tgt =>
            let pkValue := (lookupF payload tgt.primaryKey).getD .vUndef
            let criteria : JObj := [(tgt.primaryKey, pkValue)]
            let ev :=
              if jsTruthy pkValue then
                Ev.evFindOrCreate m criteria (.vObj payload) (metaAttach meta)
              else
                Ev.evCreate m (.vObj payload) (metaAttach meta)
            match tgt.execRes with
            | .error e => .failed e [ev]
            | .ok rec => .resolved ((lookupF rec tgt.primaryKey).getD .vUndef) [ev]
      | _ => .skip
  | _ => .skip

/-- One update of the `async.each` accumulator: a failed iteration appends
its query event and keeps the first error, a resolved iteration appends its
query event and writes the resolved primary key into `values[item]`. -/
def btFoldStep (ctx : CreateCtx) (meta : Option JVal) (models : JObj)
    (acc : VObject × List Ev × Option JErr) (item : String) :
    VObject × List Ev × Option JErr :=
  match btItem ctx meta models item with
  | .skip => acc
  | .failed e evs =>
    (acc.1, acc.2.1 ++ evs,
      match acc.2.2 with
      | some e0 => some e0
      | none => some e)
  | .resolved pk evs =>
    (VObject.mk (setF acc.1.values item pk) acc.1.models acc.1.collectionsA,
      acc.2.1 ++ evs, acc.2.2)

/-- `createBelongsTo` (create.js lines 105-152): `async.each` over the keys of
`associations.models`.  All iterations are dispatched (so every query event
occurs and every successful resolution writes its primary key into
`values[item]`), and the `once`-wrapped callback receives the first error. -/
def createBelongsTo (ctx : CreateCtx) (vo : VObject) (meta : Option JVal) :
    VObject × List Ev × Option JErr :=
  (keysF vo.models).foldl (btFoldStep ctx meta vo.models) (vo, ([], none))

/-- `if (typeof err === 'object') err.model = self._model.globalId` -/
def annotateModel (e : JErr) (gid : String) : JErr :=
  JErr.mk e.tag (some gid)

/-- Modelled from the spec: `self._schema.cleanValues` belongs to the external
offshore-schema collaborator (not under src); §4.2 step 5 says it is to
"strip any value for an attribute not part of the adapter-facing schema". -/
def cleanValuesM (cols : List String) (o : JObj) : JObj :=
  o.filter (fun kv => cols.contains kv.1)

/-- The timestamp stamping of `createValues` (create.js lines 190-204):
`autoCreatedAt`/`autoUpdatedAt` keys receive one shared `new Date()` when
enabled and the present value is falsy. -/
def stampTimestamps (ctx : CreateCtx) (values : JObj) : JObj :=
  let v1 :=
    match ctx.autoCreatedAt with
    | some k =>
      if jsTruthy ((lookupF values k).getD .vUndef) then values
      else setF values k ctx.nowVal
    | none => values
  match ctx.autoUpdatedAt with
  | some k =>
    if jsTruthy ((lookupF v1 k).getD .vUndef) then v1
    else setF v1 k ctx.nowVal
  | none => v1

/-- The column-keyed record handed to the adapter: the stamped values run
through the transformer in value mode and cleaned against the adapter-facing
schema (create.js lines 207-210). -/
def adapterPayload (ctx : CreateCtx) (values : JObj) : JObj :=
  cleanValuesM ctx.schemaCols
    (match serializeJ ctx.trans ctx.attrs (.vObj (stampTimestamps ctx values)) none with
     | .vObj o => o
     | _ => [])

/-- `createValues` (create.js lines 187-247): stamp the timestamp attributes,
serialize the values through the transformer (value mode), clean them against
the adapter-facing schema, call the adapter's `create` passing the
metaContainer verbatim, annotate an adapter error with the collection
identity, unserialize the returned row, run the nested hasMany linkage when
`associations.collections` is nonempty (hydration of the transient parent
model and its re-flattening are external; modelled from the spec as the
unserialized values), and finally run the after-create callback. -/
def createValuesM (ctx : CreateCtx) (vo : VObject) (meta : Option JVal)
    (evs : List Ev) : Except JErr JObj × List Ev :=
  let v4 := adapterPayload ctx vo.values
  let evs2 := evs ++ [Ev.evAdapterCreate v4 meta]
  match ctx.adapterRes with
  | .error e => (.error (annotateModel e ctx.globalId), evs2)
  | .ok rowVals =>
    let uv :=
      match unserializeJ ctx.trans (.vObj rowVals) with
      | .vObj o => o
      | _ => []
    if keysF vo.collectionsA = [] then
      match ctx.afterCreateRes with
      | some e => (.error e, evs2 ++ [Ev.evAfterCreate])
      | none => (.ok uv, evs2 ++ [Ev.evAfterCreate])
    else
      match ctx.nestedRes with
      | some e => (.error e, evs2 ++ [Ev.evNestedCreate])
      | none =>
        match ctx.afterCreateRes with
        | some e => (.error e, evs2 ++ [Ev.evNestedCreate, Ev.evAfterCreate])
        | none => (.ok uv, evs2 ++ [Ev.evNestedCreate, Ev.evAfterCreate])

/-- The single-record path of `module.exports` after `processValues`
(create.js lines 51-58): resolve the belongsTo associations, then run
validation and the before-create callback in series, then `createValues`.
`createBelongsTo.call(this, valuesObject, function(err) ...)` passes no third
argument, so the metaContainer inside `createBelongsTo` is undefined — the
pipeline hands `none` to it and `meta` only to `createValues`. -/
def createPipeline (ctx : CreateCtx) (vo : VObject) (meta : Option JVal) :
    Except JErr JObj × List Ev :=
  let r := createBelongsTo ctx vo none
  match r.2.2 with
  | some e => (.error e, r.2.1)
  | none =>
    match ctx.validateRes with
    | some e => (.error e, r.2.1 ++ [Ev.evValidate])
    | none =>
      match ctx.beforeCreateRes with
      | some e => (.error e, r.2.1 ++ [Ev.evValidate, Ev.evBeforeCreate])
      | none => createValuesM ctx r.1 meta (r.2.1 ++ [Ev.evValidate, Ev.evBeforeCreate])

/-- The entry normalization of `module.exports` (create.js lines 22-45):
`values = _.filter(values, undefined)` for array input, then the Deferred
return when no callback, then delegation of arrays to `createEach`.  In
lodash 4.17.2 `_.filter` with an `undefined` predicate falls back to
`_.identity` (`baseIteratee(undefined)` returns `identity`), so the filter
keeps exactly the truthy elements. -/
inductive CreateInput where
  | arrI : List JVal → CreateInput
  | objI : JObj → CreateInput

inductive CreateDispatch where
  | deferredD : CreateInput → CreateDispatch
  | toCreateEach : List JVal → CreateDispatch
  | single : JObj → CreateDispatch

def lodashFilterDefault (l : List JVal) : List JVal :=
  l.filter (fun v => jsTruthy v)

def createDispatch (values : CreateInput) (hasCb : Bool) : CreateDispatch :=
  let values2 :=
    match values with
    | .arrI l => CreateInput.arrI (lodashFilterDefault l)
    | o => o
  if hasCb = false then .deferredD values2
  else
    match values2 with
    | .arrI l => .toCreateEach l
    | .objI o => .single o

def isBTEv : Ev → Bool
  | .evFindOrCreate _ _ _ _ => true
  | .evCreate _ _ _ => true
  | _ => false

def countAdapter (l : List Ev) : Nat :=
  (l.filter (fun e =>
    match e with
    | .evAdapterCreate _ _ => true
    | _ => false)).length

/-! ### Claim C2: hook ordering and fail-fast -/

theorem countAdapter_append (a b : List Ev) :
    countAdapter (a ++ b) = countAdapter a + countAdapter b := by
  simp [countAdapter, List.filter_append]

theorem countAdapter_bt_zero (l : List Ev) (h : ∀ e ∈ l, isBTEv e = true) :
    countAdapter l = 0 := by
  induction l with
  | nil => rfl
  | cons e rest ih =>
    have hr := ih (fun x hx => h x (List.mem_cons_of_mem _ hx))
    have he := h e (List.mem_cons_self _ _)
    cases e with
    | evFindOrCreate a b c m => simpa [countAdapter, List.filter_cons] using hr
    | evCreate a b m => simpa [countAdapter, List.filter_cons] using hr
    | evValidate => simp [isBTEv] at he
    | evBeforeCreate => simp [isBTEv] at he
    | evAdapterCreate a m => simp [isBTEv] at he
    | evNestedCreate => simp [isBTEv] at he
    | evAfterCreate => simp [isBTEv] at he

/-- Every iteration of the belongsTo fan-out produces only sibling-collection
query events. -/
theorem btItem_shape (ctx : CreateCtx) (meta : Option JVal) (models : JObj)
    (item : String) :
    btItem ctx meta models item = .skip ∨
    (∃ e ev, btItem ctx meta models item = .failed e [ev] ∧ isBTEv ev = true) ∨
    (∃ pk ev, btItem ctx meta models item = .resolved pk [ev] ∧ isBTEv ev = true) := by
  unfold btItem
  dsimp only
  repeat' split
  all_goals
    first
      | exact Or.inl rfl
      | (refine Or.inr (Or.inl ⟨_, _, rfl, ?_⟩); rfl)
      | (refine Or.inr (Or.inr ⟨_, _, rfl, ?_⟩); rfl)

theorem btFoldStep_events_bt (ctx : CreateCtx) (meta : Option JVal)
    (models : JObj) (acc : VObject × List Ev × Option JErr) (item : String)
    (hacc : ∀ e ∈ acc.2.1, isBTEv e = true) :
    ∀ e ∈ (btFoldStep ctx meta models acc item).2.1, isBTEv e = true := by
  rcases btItem_shape ctx meta models item with hsk | ⟨e0, ev0, heq, hbt⟩ |
    ⟨pk0, ev0, heq, hbt⟩
  · rw [btFoldStep, hsk]
    exact hacc
  · rw [btFoldStep, heq]
    intro e he
    rcases List.mem_append.1 he with he | he
    · exact hacc e he
    · rcases List.mem_cons.1 he with he | he
      · exact he ▸ hbt
      · cases he
  · rw [btFoldStep, heq]
    intro e he
    rcases List.mem_append.1 he with he | he
    · exact hacc e he
    · rcases List.mem_cons.1 he with he | he
      · exact he ▸ hbt
      · cases he

theorem createBelongsTo_events_bt (ctx : CreateCtx) (vo : VObject)
    (meta : Option JVal) :
    ∀ e ∈ (createBelongsTo ctx vo meta).2.1, isBTEv e = true := by
  rw [createBelongsTo]
  suffices h : ∀ (items : List String) (acc : VObject × List Ev × Option JErr),
      (∀ e ∈ acc.2.1, isBTEv e = true) →
      ∀ e ∈ (items.foldl (btFoldStep ctx meta vo.models) acc).2.1,
        isBTEv e = true by
    exact h (keysF vo.models) (vo, ([], none)) (by intro e he; cases he)
  intro items
  induction items with
  | nil => intro acc hacc; exact hacc
  | cons item rest ih =>
    intro acc hacc
    rw [List.foldl_cons]
    exact ih _ (btFoldStep_events_bt ctx meta vo.models acc item hacc)

/-- The tail of the trace `createValuesM` emits: the adapter create (with the
invocation's metaContainer) followed only by nested-create and after-create
events. -/
theorem createValuesM_trace (ctx : CreateCtx) (vo : VObject) (meta : Option JVal)
    (evs : List Ev) :
    ∃ tail, (createValuesM ctx vo meta evs).2 =
        evs ++ Ev.evAdapterCreate (adapterPayload ctx vo.values) meta :: tail ∧
      (∀ e ∈ tail, isBTEv e = false) ∧ countAdapter tail = 0 := by
  rw [createValuesM]
  cases ctx.adapterRes with
  | error e =>
    dsimp only
    exact ⟨[], by simp, by simp, rfl⟩
  | ok rowVals =>
    dsimp only
    by_cases hc : keysF vo.collectionsA = []
    · rw [if_pos hc]
      cases ctx.afterCreateRes with
      | some e =>
        exact ⟨[Ev.evAfterCreate], by simp, by simp [isBTEv], rfl⟩
      | none =>
        exact ⟨[Ev.evAfterCreate], by simp, by simp [isBTEv], rfl⟩
    · rw [if_neg hc]
      cases ctx.nestedRes with
      | some e =>
        exact ⟨[Ev.evNestedCreate], by simp, by simp [isBTEv], rfl⟩
      | none =>
        cases ctx.afterCreateRes with
        | some e =>
          exact ⟨[Ev.evNestedCreate, Ev.evAfterCreate], by simp,
            by simp [isBTEv], rfl⟩
        | none =>
          exact ⟨[Ev.evNestedCreate, Ev.evAfterCreate], by simp,
            by simp [isBTEv], rfl⟩

/-- Claim C2: in every create invocation the trace is the belongsTo query
events followed by the rest; when validation runs it is the first non-query
event and the before-create callback the second, so both run only after all
belongsTo resolutions have completed; a belongsTo failure, a validation
failure, or a before-create failure delivers that error to the caller with
zero adapter create calls in the trace. -/
theorem create_hooks_order_and_failfast (ctx : CreateCtx) (vo : VObject)
    (meta : Option JVal) :
    (∃ btl rest, (createPipeline ctx vo meta).2 = btl ++ rest ∧
      (∀ e ∈ btl, isBTEv e = true) ∧ (∀ e ∈ rest, isBTEv e = false) ∧
      (Ev.evValidate ∈ (createPipeline ctx vo meta).2 →
        rest.head? = some Ev.evValidate) ∧
      (Ev.evBeforeCreate ∈ (createPipeline ctx vo meta).2 →
        rest.take 2 = [Ev.evValidate, Ev.evBeforeCreate])) ∧
    (∀ e, (createBelongsTo ctx vo none).2.2 = some e →
      (createPipeline ctx vo meta).1 = .error e ∧
      countAdapter (createPipeline ctx vo meta).2 = 0 ∧
      Ev.evValidate ∉ (createPipeline ctx vo meta).2) ∧
    (∀ e, (createBelongsTo ctx vo none).2.2 = none → ctx.validateRes = some e →
      (createPipeline ctx vo meta).1 = .error e ∧
      countAdapter (createPipeline ctx vo meta).2 = 0) ∧
    (∀ e, (createBelongsTo ctx vo none).2.2 = none → ctx.validateRes = none →
      ctx.beforeCreateRes = some e →
      (createPipeline ctx vo meta).1 = .error e ∧
      countAdapter (createPipeline ctx vo meta).2 = 0) := by
  have hbt := createBelongsTo_events_bt ctx vo none
  have hbt0 := countAdapter_bt_zero _ hbt
  cases hberr : (createBelongsTo ctx vo none).2.2 with
  | some e0 =>
    have hpipe : createPipeline ctx vo meta =
        (.error e0, (createBelongsTo ctx vo none).2.1) := by
      rw [createPipeline, hberr]
    refine ⟨⟨(createBelongsTo ctx vo none).2.1, [], by simp [hpipe], hbt,
      by simp, ?_, ?_⟩, ?_, ?_, ?_⟩
    · intro hmem
      rw [hpipe] at hmem
      exact absurd (hbt _ hmem) (by simp [isBTEv])
    · intro hmem
      rw [hpipe] at hmem
      exact absurd (hbt _ hmem) (by simp [isBTEv])
    · intro e he
      cases Option.some.inj he
      refine ⟨by rw [hpipe], by rw [hpipe]; exact hbt0, ?_⟩
      intro hmem
      rw [hpipe] at hmem
      exact absurd (hbt _ hmem) (by simp [isBTEv])
    · intro e he
      exact Option.noConfusion he
    · intro e he
      exact Option.noConfusion he
  | none =>
    cases hval : ctx.validateRes with
    | some e0 =>
      have hpipe : createPipeline ctx vo meta =
          (.error e0, (createBelongsTo ctx vo none).2.1 ++ [Ev.evValidate]) := by
        rw [createPipeline, hberr, hval]
      refine ⟨⟨(createBelongsTo ctx vo none).2.1, [Ev.evValidate],
        by rw [hpipe], hbt, by simp [isBTEv], fun _ => rfl, ?_⟩, ?_, ?_, ?_⟩
      · intro hmem
        rw [hpipe] at hmem
        rcases List.mem_append.1 hmem with hm | hm
        · exact absurd (hbt _ hm) (by simp [isBTEv])
        · rcases List.mem_cons.1 hm with hm | hm
          · cases hm
          · cases hm
      · intro e he
        exact Option.noConfusion he
      · intro e _ he
        cases Option.some.inj he
        refine ⟨by rw [hpipe], ?_⟩
        rw [hpipe, countAdapter_append, hbt0]
        rfl
      · intro e _ hv
        exact Option.noConfusion hv
    | none =>
      cases hbc : ctx.beforeCreateRes with
      | some e0 =>
        have hpipe : createPipeline ctx vo meta =
            (.error e0, (createBelongsTo ctx vo none).2.1 ++
              [Ev.evValidate, Ev.evBeforeCreate]) := by
          rw [createPipeline, hberr, hval, hbc]
        refine ⟨⟨(createBelongsTo ctx vo none).2.1,
          [Ev.evValidate, Ev.evBeforeCreate],
          by rw [hpipe], hbt, by simp [isBTEv], fun _ => rfl, fun _ => rfl⟩,
          ?_, ?_, ?_⟩
        · intro e he
          exact Option.noConfusion he
        · intro e _ hv
          exact Option.noConfusion hv
        · intro e _ _ hb
          cases Option.some.inj hb
          refine ⟨by rw [hpipe], ?_⟩
          rw [hpipe, countAdapter_append, hbt0]
          rfl
      | none =>
        have hpipe : createPipeline ctx vo meta =
            createValuesM ctx (createBelongsTo ctx vo none).1 meta
              ((createBelongsTo ctx vo none).2.1 ++
                [Ev.evValidate, Ev.evBeforeCreate]) := by
          rw [createPipeline, hberr, hval, hbc]
        obtain ⟨tail, htr, htail, _⟩ := createValuesM_trace ctx
          (createBelongsTo ctx vo none).1 meta
          ((createBelongsTo ctx vo none).2.1 ++ [Ev.evValidate, Ev.evBeforeCreate])
        refine ⟨⟨(createBelongsTo ctx vo none).2.1,
          Ev.evValidate :: Ev.evBeforeCreate ::
            Ev.evAdapterCreate (adapterPayload ctx (createBelongsTo ctx vo none).1.values)
              meta :: tail,
          ?_, hbt, ?_, fun _ => rfl, fun _ => rfl⟩, ?_, ?_, ?_⟩
        · rw [hpipe, htr]
          simp
        · intro e he
          rcases List.mem_cons.1 he with he | he
          · exact he ▸ rfl
          · rcases List.mem_cons.1 he with he | he
            · exact he ▸ rfl
            · rcases List.mem_cons.1 he with he | he
              · exact he ▸ rfl
              · exact htail e he
        · intro e he
          exact Option.noConfusion he
        · intro e _ hv
          exact Option.noConfusion hv
        · intro e _ _ hb
          exact Option.noConfusion hb

/-! ### Claim C3: belongsTo resolution -/

/-- The pipeline trace is the belongsTo query events followed by non-query
events. -/
theorem createPipeline_split (ctx : CreateCtx) (vo : VObject) (meta : Option JVal) :
    ∃ rest, (createPipeline ctx vo meta).2 =
        (createBelongsTo ctx vo none).2.1 ++ rest ∧
      ∀ e ∈ rest, isBTEv e = false := by
  cases hberr : (createBelongsTo ctx vo none).2.2 with
  | some e0 =>
    refine ⟨[], ?_, by simp⟩
    rw [createPipeline, hberr]
    simp
  | none =>
    cases hval : ctx.validateRes with
    | some e0 =>
      refine ⟨[Ev.evValidate], ?_, by simp [isBTEv]⟩
      rw [createPipeline, hberr, hval]
    | none =>
      cases hbc : ctx.beforeCreateRes with
      | some e0 =>
        refine ⟨[Ev.evValidate, Ev.evBeforeCreate], ?_, by simp [isBTEv]⟩
        rw [createPipeline, hberr, hval, hbc]
      | none =>
        obtain ⟨tail, htr, htail, _⟩ := createValuesM_trace ctx
          (createBelongsTo ctx vo none).1 meta
          ((createBelongsTo ctx vo none).2.1 ++ [Ev.evValidate, Ev.evBeforeCreate])
        refine ⟨Ev.evValidate :: Ev.evBeforeCreate ::
          Ev.evAdapterCreate (adapterPayload ctx (createBelongsTo ctx vo none).1.values)
            meta :: tail, ?_, ?_⟩
        · rw [createPipeline, hberr, hval, hbc, htr]
          simp
        · intro e he
          rcases List.mem_cons.1 he with he | he
          · exact he ▸ rfl
          · rcases List.mem_cons.1 he with he | he
            · exact he ▸ rfl
            · rcases List.mem_cons.1 he with he | he
              · exact he ▸ rfl
              · exact htail e he

/-- The belongsTo fan-out only ever appends query events to its trace. -/
theorem btFold_events_mono (ctx : CreateCtx) (meta : Option JVal) (models : JObj) :
    ∀ (items : List String) (acc : VObject × List Ev × Option JErr),
    ∃ suffix, (items.foldl (btFoldStep ctx meta models) acc).2.1 =
      acc.2.1 ++ suffix := by
  intro items
  induction items with
  | nil => exact fun acc => ⟨[], by simp⟩
  | cons item rest ih =>
    intro acc
    rw [List.foldl_cons]
    obtain ⟨suffix, hs⟩ := ih (btFoldStep ctx meta models acc item)
    rcases btItem_shape ctx meta models item with hsk | ⟨e0, ev0, heq, _⟩ |
      ⟨pk0, ev0, heq, _⟩
    · rw [hs, btFoldStep, hsk]
      exact ⟨suffix, rfl⟩
    · rw [hs, btFoldStep, heq]
      exact ⟨[ev0] ++ suffix, by simp⟩
    · rw [hs, btFoldStep, heq]
      exact ⟨[ev0] ++ suffix, by simp⟩

/-- The query event of every processed belongsTo key appears in the fan-out
trace. -/
theorem btFold_event_of_item (ctx : CreateCtx) (meta : Option JVal)
    (models : JObj) (item : String) (ev : Ev)
    (hev : (∃ e, btItem ctx meta models item = .failed e [ev]) ∨
           (∃ pk, btItem ctx meta models item = .resolved pk [ev])) :
    ∀ (items : List String) (acc : VObject × List Ev × Option JErr),
    item ∈ items →
    ∃ pre post, (items.foldl (btFoldStep ctx meta models) acc).2.1 =
      pre ++ ev :: post := by
  intro items
  induction items with
  | nil =>
    intro acc hmem
    cases hmem
  | cons i rest ih =>
    intro acc hmem
    rw [List.foldl_cons]
    by_cases hii : i = item
    · subst hii
      obtain ⟨suffix, hs⟩ := btFold_events_mono ctx meta models rest
        (btFoldStep ctx meta models acc i)
      rcases hev with ⟨e0, heq⟩ | ⟨pk0, heq⟩
      · rw [hs, btFoldStep, heq]
        exact ⟨acc.2.1, suffix, by simp⟩
      · rw [hs, btFoldStep, heq]
        exact ⟨acc.2.1, suffix, by simp⟩
    · rcases List.mem_cons.1 hmem with hmem | hmem
      · exact absurd hmem.symm hii
      · exact ih _ hmem

/-- Keys outside the processed item list keep their value through the
fan-out. -/
theorem btFold_values_frame (ctx : CreateCtx) (meta : Option JVal)
    (models : JObj) :
    ∀ (items : List String) (acc : VObject × List Ev × Option JErr) (k : String),
    (∀ i ∈ items, i ≠ k) →
    lookupF ((items.foldl (btFoldStep ctx meta models) acc).1.values) k =
      lookupF acc.1.values k := by
  intro items
  induction items with
  | nil => intro acc k _; rfl
  | cons i rest ih =>
    intro acc k hk
    rw [List.foldl_cons]
    have hik : i ≠ k := hk i (List.mem_cons_self _ _)
    have hrest : ∀ i' ∈ rest, i' ≠ k := fun i' hi' => hk i' (List.mem_cons_of_mem _ hi')
    rw [ih _ k hrest]
    rcases btItem_shape ctx meta models i with hsk | ⟨e0, ev0, heq, _⟩ |
      ⟨pk0, ev0, heq, _⟩
    · rw [btFoldStep, hsk]
    · rw [btFoldStep, heq]
    · rw [btFoldStep, heq]
      exact lookupF_setF_ne _ _ _ _ (Ne.symm hik)

/-- A resolved belongsTo key holds the resolved primary-key value after the
fan-out. -/
theorem btFold_values_resolved (ctx : CreateCtx) (meta : Option JVal)
    (models : JObj) (item : String) (pk : JVal) (ev : Ev)
    (hres : btItem ctx meta models item = .resolved pk [ev]) :
    ∀ (items : List String) (acc : VObject × List Ev × Option JErr),
    items.Nodup → item ∈ items →
    lookupF ((items.foldl (btFoldStep ctx meta models) acc).1.values) item =
      some pk := by
  intro items
  induction items with
  | nil =>
    intro acc _ hmem
    cases hmem
  | cons i rest ih =>
    intro acc hnd hmem
    rw [List.foldl_cons]
    by_cases hii : i = item
    · subst hii
      have hnir : ∀ i' ∈ rest, i' ≠ i := fun i' hi' hie =>
        (List.nodup_cons.1 hnd).1 (hie ▸ hi')
      rw [btFold_values_frame ctx meta models rest _ i hnir, btFoldStep, hres]
      exact lookupF_setF_self _ _ _
    · rcases List.mem_cons.1 hmem with hmem | hmem
      · exact absurd hmem.symm hii
      · exact ih _ (List.nodup_cons.1 hnd).2 hmem

/-- Claim C3 (amended): for an extracted belongsTo payload that is a plain
object resolving to a loaded target collection, the pipeline issues an
upsert-by-primary-key (findOrCreate with the criteria keyed by the target's
primary key) when the payload's value under the target's primary key is
truthy, and a plain create otherwise — in particular a payload that carries
the primary-key field with a falsy value (0, empty string, null, false) gets
a plain create, not an upsert; on success the parent's value for the
attribute is replaced with the resolved record's primary-key value, and all
belongsTo queries precede every non-query event of the invocation, hence the
parent write. -/
theorem belongsto_query_choice_and_fk (ctx : CreateCtx) (vo : VObject)
    (meta : Option JVal) (item : String) (payload : JObj) (attrEntry : JObj)
    (m : String) (tgt : TargetModel)
    (hitem : item ∈ keysF vo.models)
    (hnd : (keysF vo.models).Nodup)
    (hpay : lookupF vo.models item = some (.vObj payload))
    (hschema : lookupA ctx.schema ((lookupS ctx.trans item).getD item) = some attrEntry)
    (hmodel : (match lookupF attrEntry "model" with
               | some v => some v
               | none => lookupF attrEntry "collection") = some (JVal.vStr m))
    (hm : ¬ m = "")
    (hcol : lookupA ctx.collections m = some tgt) :
    (jsTruthy ((lookupF payload tgt.primaryKey).getD .vUndef) = true →
      ∃ pre post, (createPipeline ctx vo meta).2 =
        pre ++ Ev.evFindOrCreate m
          [(tgt.primaryKey, (lookupF payload tgt.primaryKey).getD .vUndef)]
          (.vObj payload) none :: post) ∧
    (jsTruthy ((lookupF payload tgt.primaryKey).getD .vUndef) = false →
      ∃ pre post, (createPipeline ctx vo meta).2 =
        pre ++ Ev.evCreate m (.vObj payload) none :: post) ∧
    (∀ rec, tgt.execRes = .ok rec →
      lookupF (createBelongsTo ctx vo none).1.values item =
        some ((lookupF rec tgt.primaryKey).getD .vUndef)) ∧
    (∃ btl rest, (createPipeline ctx vo meta).2 = btl ++ rest ∧
      (∀ e ∈ btl, isBTEv e = true) ∧ (∀ e ∈ rest, isBTEv e = false)) := by
  have hstep : btItem ctx none vo.models item =
      (match tgt.execRes with
       | .error e => BTOutcome.failed e
           [if jsTruthy ((lookupF payload tgt.primaryKey).getD .vUndef) then
              Ev.evFindOrCreate m
                [(tgt.primaryKey, (lookupF payload tgt.primaryKey).getD .vUndef)]
                (.vObj payload) (metaAttach none)
            else Ev.evCreate m (.vObj payload) (metaAttach none)]
       | .ok rec => BTOutcome.resolved ((lookupF rec tgt.primaryKey).getD .vUndef)
           [if jsTruthy ((lookupF payload tgt.primaryKey).getD .vUndef) then
              Ev.evFindOrCreate m
                [(tgt.primaryKey, (lookupF payload tgt.primaryKey).getD .vUndef)]
                (.vObj payload) (metaAttach none)
            else Ev.evCreate m (.vObj payload) (metaAttach none)]) := by
    simp only [btItem, hpay, hschema, hmodel, hcol]
    rw [if_neg hm]
  obtain ⟨rest0, hsplit, hrest0⟩ := createPipeline_split ctx vo meta
  have hev : ∀ ev : Ev,
      ((∃ e, btItem ctx none vo.models item = .failed e [ev]) ∨
       (∃ pk, btItem ctx none vo.models item = .resolved pk [ev])) →
      ∃ pre post, (createPipeline ctx vo meta).2 = pre ++ ev :: post := by
    intro ev h
    obtain ⟨pre, post, hpp⟩ := btFold_event_of_item ctx none vo.models item ev h
      (keysF vo.models) (vo, ([], none)) hitem
    refine ⟨pre, post ++ rest0, ?_⟩
    rw [hsplit, createBelongsTo, hpp]
    simp
  refine ⟨?_, ?_, ?_, ?_⟩
  · intro htr
    refine hev _ ?_
    rw [hstep]
    cases hex : tgt.execRes with
    | error e => exact Or.inl ⟨e, by rw [if_pos htr]; rfl⟩
    | ok rec => exact Or.inr ⟨_, by rw [if_pos htr]; rfl⟩
  · intro htr
    refine hev _ ?_
    rw [hstep]
    cases hex : tgt.execRes with
    | error e =>
      refine Or.inl ⟨e, ?_⟩
      rw [if_neg (by rw [htr]; exact fun h => Bool.noConfusion h)]
      rfl
    | ok rec =>
      refine Or.inr ⟨(lookupF rec tgt.primaryKey).getD .vUndef, ?_⟩
      rw [if_neg (by rw [htr]; exact fun h => Bool.noConfusion h)]
      rfl
  · intro rec hrec
    rw [createBelongsTo]
    refine btFold_values_resolved ctx none vo.models item
      ((lookupF rec tgt.primaryKey).getD .vUndef)
      (if jsTruthy ((lookupF payload tgt.primaryKey).getD .vUndef) then
         Ev.evFindOrCreate m
           [(tgt.primaryKey, (lookupF payload tgt.primaryKey).getD .vUndef)]
           (.vObj payload) (metaAttach none)
       else Ev.evCreate m (.vObj payload) (metaAttach none))
      ?_ (keysF vo.models) (vo, ([], none)) hnd hitem
    rw [hstep, hrec]
  · exact ⟨(createBelongsTo ctx vo none).2.1, rest0, hsplit,
      createBelongsTo_events_bt ctx vo none, hrest0⟩

/-! Concrete configuration shared by the creation-pipeline examples: a `pet`
collection with a belongsTo attribute `owner` targeting the `user`
collection. -/

def tgtUser : TargetModel :=
  TargetModel.mk "id" (.ok [("id", JVal.vNum 7), ("email", JVal.vStr "e@x.com")])

def ctxPet : CreateCtx :=
  CreateCtx.mk [] [] [("owner", [("model", JVal.vStr "user")])] [("user", tgtUser)]
    none none (JVal.vDate "now") ["name", "owner"] "pet"
    none none none
    (.ok [("name", JVal.vStr "a"), ("owner", JVal.vNum 7), ("id", JVal.vNum 1)]) none

/-- The same collection with a rejecting before-create callback. -/
def ctxPetBC : CreateCtx :=
  CreateCtx.mk [] [] [("owner", [("model", JVal.vStr "user")])] [("user", tgtUser)]
    none none (JVal.vDate "now") ["name", "owner"] "pet"
    none (some (JErr.mk "beforeCreate rejected" none)) none
    (.ok [("name", JVal.vStr "a"), ("owner", JVal.vNum 7), ("id", JVal.vNum 1)]) none

/-- `{ name: 'a', owner: { email: 'e@x.com' } }` — no target primary key. -/
def payloadEmail : JObj := [("email", JVal.vStr "e@x.com")]

def voOwnerEmail : VObject :=
  VObject.mk [("name", JVal.vStr "a"), ("owner", JVal.vObj payloadEmail)]
    [("owner", JVal.vObj payloadEmail)] []

/-- `{ name: 'a', owner: { id: 0, email: 'e@x.com' } }` — the payload carries
the target's primary-key field with the falsy value 0. -/
def payloadZero : JObj := [("id", JVal.vNum 0), ("email", JVal.vStr "e@x.com")]

def voOwnerZero : VObject :=
  VObject.mk [("name", JVal.vStr "a"), ("owner", JVal.vObj payloadZero)]
    [("owner", JVal.vObj payloadZero)] []

theorem belongsto_query_choice_and_fk_witness :
    (∃ pre post, (createPipeline ctxPet voOwnerEmail none).2 =
      pre ++ Ev.evCreate "user" (.vObj payloadEmail) none :: post) ∧
    lookupF (createBelongsTo ctxPet voOwnerEmail none).1.values "owner" =
      some (JVal.vNum 7) := by
  have happ := belongsto_query_choice_and_fk ctxPet voOwnerEmail none "owner"
    payloadEmail [("model", JVal.vStr "user")] "user" tgtUser
    (by decide) (by decide) rfl rfl rfl (by decide) rfl
  exact ⟨happ.2.1 rfl, happ.2.2.1 [("id", JVal.vNum 7), ("email", JVal.vStr "e@x.com")] rfl⟩

/-- Claim C3, counterexample: the payload `{id: 0, email: ...}` carries the
target's primary-key field, yet the pipeline issues a plain create — the
full trace contains no findOrCreate query, because the source tests the
primary-key value for truthiness, not for presence. -/
theorem belongsto_query_choice_counterexample :
    lookupF payloadZero "id" = some (JVal.vNum 0) ∧
    (createPipeline ctxPet voOwnerZero none).2 =
      [Ev.evCreate "user" (.vObj payloadZero) none, Ev.evValidate, Ev.evBeforeCreate,
        Ev.evAdapterCreate [("name", JVal.vStr "a"), ("owner", JVal.vNum 7)] none,
        Ev.evAfterCreate] :=
  ⟨rfl, rfl⟩

theorem create_hooks_order_and_failfast_witness :
    (createPipeline ctxPetBC voOwnerEmail none).1 =
      .error (JErr.mk "beforeCreate rejected" none) ∧
    countAdapter (createPipeline ctxPetBC voOwnerEmail none).2 = 0 :=
  (create_hooks_order_and_failfast ctxPetBC voOwnerEmail none).2.2.2
    (JErr.mk "beforeCreate rejected" none) rfl rfl rfl

/-- An opaque transaction-style context supplied by the caller. -/
def metaTx : JVal := JVal.vObj [("tx", JVal.vNum 1)]

/-- Claim C4, code bug: `module.exports` calls
`createBelongsTo.call(this, valuesObject, function(err) ...)` with no third
argument (create.js line 51), so inside `createBelongsTo` the metaContainer is
undefined and the `if(metaContainer) query.meta(metaContainer)` guard
(lines 137-139) never fires.  On a concrete invocation that supplies a
context, the full trace shows the belongsTo query carrying no context while
the adapter create in the same invocation carries it verbatim; the second
conjunct shows the guard would have attached this very context had it been
passed, so the dead branch is unreachable only because of the call site. -/
theorem meta_not_forwarded_to_belongsto :
    (createPipeline ctxPet voOwnerEmail (some metaTx)).2 =
      [Ev.evCreate "user" (.vObj payloadEmail) none, Ev.evValidate,
        Ev.evBeforeCreate,
        Ev.evAdapterCreate [("name", JVal.vStr "a"), ("owner", JVal.vNum 7)]
          (some metaTx),
        Ev.evAfterCreate] ∧
    metaAttach (some metaTx) = some metaTx :=
  ⟨rfl, rfl⟩

/-- Claim C9 (amended): for array input the step
`values = _.filter(values, undefined)` is not a no-op — in lodash 4.17.2 an
`undefined` iteratee falls back to `_.identity`, so the array delegated to
`createEach` is the original with every falsy element removed. -/
theorem bulk_create_filter_removes_falsy (l : List JVal) :
    createDispatch (.arrI l) true =
      .toCreateEach (l.filter (fun v => jsTruthy v)) := rfl

theorem bulk_create_filter_removes_falsy_witness :
    createDispatch (.arrI [JVal.vNull, JVal.vObj [("name", JVal.vStr "a")]])
        true =
      .toCreateEach
        ((List.filter (fun v => jsTruthy v)
          [JVal.vNull, JVal.vObj [("name", JVal.vStr "a")]])) :=
  bulk_create_filter_removes_falsy
    [JVal.vNull, JVal.vObj [("name", JVal.vStr "a")]]

/-- Claim C9, counterexample: an array holding one `undefined` entry is
delegated as the empty array, so the delegated array does not have the same
elements as the original — the filter is not a no-op. -/
theorem bulk_create_filter_counterexample :
    createDispatch (.arrI [JVal.vUndef]) true = .toCreateEach [] ∧
    createDispatch (.arrI [JVal.vUndef]) true ≠
      .toCreateEach [JVal.vUndef] := by
  refine ⟨rfl, fun h => ?_⟩
  rw [show createDispatch (.arrI [JVal.vUndef]) true = .toCreateEach []
    from rfl] at h
  exact List.noConfusion (CreateDispatch.toCreateEach.inj h)

/-! ### Defaults application in `processValues` (create.js lines 69-85)

The spec claims literal defaults are deep-copied and the candidate input is
(implicitly) mutated in place, so object identity matters here.  This part of
the embedding therefore uses an explicit heap: compound values are references
into a store, `values[key] = ...` writes through the caller's reference, and
`_.cloneWith` allocates. -/

/-- A JS value as seen by `processValues`: primitives are immediate, binary
`Buffer` payloads and plain objects are references into the heap. -/
inductive HVal where
  | hUndef : HVal
  | hNull : HVal
  | hBool : Bool → HVal
  | hNum : Int → HVal
  | hStr : String → HVal
  | hBuf : Nat → HVal
  | hObjRef : Nat → HVal
deriving DecidableEq, Repr

def isPrimH : HVal → Bool
  | .hObjRef _ => false
  | _ => true

def lookupHF : List (String × HVal) → String → Option HVal
  | [], _ => none
  | (k', v) :: rest, k => if k' = k then some v else lookupHF rest k

def setHF : List (String × HVal) → String → HVal → List (String × HVal)
  | [], k, v => [(k, v)]
  | (k1, v1) :: rest, k, v =>
    if k1 = k then (k, v) :: rest else (k1, v1) :: setHF rest k v

def lookupN {α : Type} : List (Nat × α) → Nat → Option α
  | [], _ => none
  | (r', a) :: rest, r => if r' = r then some a else lookupN rest r

def setN {α : Type} : List (Nat × α) → Nat → α → List (Nat × α)
  | [], r, a => [(r, a)]
  | (r1, a1) :: rest, r, a =>
    if r1 = r then (r, a) :: rest else (r1, a1) :: setN rest r a

/-- The object store: plain objects by reference, and the next fresh
reference. -/
structure Heap where
  objs : List (Nat × List (String × HVal))
  next : Nat
deriving Repr

def getObj (h : Heap) (r : Nat) : List (String × HVal) :=
  (lookupN h.objs r).getD []

def setObj (h : Heap) (r : Nat) (o : List (String × HVal)) : Heap :=
  ⟨setN h.objs r o, h.next⟩

def allocObj (h : Heap) (o : List (String × HVal)) : Heap × Nat :=
  (⟨(h.next, o) :: h.objs, h.next + 1⟩, h.next)

/-- `values[key] = v` through the reference `r`. -/
def setField (h : Heap) (r : Nat) (k : String) (v : HVal) : Heap :=
  setObj h r (setHF (getObj h r) k v)

/-- `_.cloneWith(defaultsTo, dealWithBuffers)` — lodash 4.17.2 `_.cloneWith`
is a SHALLOW clone: the customizer sees the top-level value; a `Buffer` is
returned as-is (same reference), a plain object is cloned into a fresh
object whose property list is the very same list (nested references are
shared, not copied), and primitives are returned by value. -/
def cloneWithBuf (h : Heap) (v : HVal) : Heap × HVal :=
  match v with
  | .hObjRef r =>
    let a := allocObj h (getObj h r)
    (a.1, .hObjRef a.2)
  | v => (h, v)

/-- A declared `defaultsTo`: a literal heap value, or a factory invoked with
the candidate input object (`defaultsTo.call(values)`), modelled as a
function of the candidate's reference and the current heap. -/
inductive CDefault where
  | lit : HVal → CDefault
  | fnD : (Nat → Heap → HVal) → CDefault

/-- An attribute declaration as `processValues` sees it: a function, a string
shorthand, or an object optionally carrying a `defaultsTo` key. -/
inductive CAttrDecl where
  | cFn : CAttrDecl
  | cStr : String → CAttrDecl
  | cObjD : Option CDefault → CAttrDecl

/-- `!hop(values, key) || values[key] === undefined`. -/
def needsDefault (flds : List (String × HVal)) (k : String) : Bool :=
  match lookupHF flds k with
  | none => true
  | some .hUndef => true
  | some _ => false

/-- One iteration of the `for (var key in this.attributes)` loop of
`processValues` (create.js lines 72-85) on the candidate object `r`: when the
declaration carries a `defaultsTo` and the key is absent or undefined, write
the default through `r` — a factory is called with `r` as its context, a
literal goes through `_.cloneWith(defaultsTo, dealWithBuffers)`. -/
def defaultStep (r : Nat) (h : Heap) (kd : String × CAttrDecl) : Heap :=
  match kd.2 with
  | .cObjD (some dft) =>
    if needsDefault (getObj h r) kd.1 then
      match dft with
      | .fnD f => setField h r kd.1 (f r h)
      | .lit v =>
        let c := cloneWithBuf h v
        setField c.1 r kd.1 c.2
    else h
  | _ => h

/-- The default-setting stage of `processValues` (create.js lines 69-85): the
loop body runs over the declared attributes, writing into the caller's
object; the function hands the SAME reference `r` onward (the later
association parsing and casting are outside the given sources). -/
def createProcessValues (attrs : List (String × CAttrDecl)) (h : Heap)
    (r : Nat) : Heap × Nat :=
  (attrs.foldl (defaultStep r) h, r)

theorem lookupHF_setHF_self (l : List (String × HVal)) (k : String)
    (v : HVal) : lookupHF (setHF l k v) k = some v := by
  induction l with
  | nil => simp [setHF, lookupHF]
  | cons kv rest ih =>
    obtain ⟨k1, v1⟩ := kv
    by_cases hk : k1 = k
    · subst hk; simp [setHF, lookupHF]
    · simp [setHF, lookupHF, hk, ih]

theorem lookupHF_setHF_ne (l : List (String × HVal)) (k q : String)
    (v : HVal) (hne : k ≠ q) : lookupHF (setHF l k v) q = lookupHF l q := by
  induction l with
  | nil => simp [setHF, lookupHF, hne]
  | cons kv rest ih =>
    obtain ⟨k1, v1⟩ := kv
    by_cases hk : k1 = k
    · subst hk; simp [setHF, lookupHF, hne]
    · simp [setHF, lookupHF, hk, ih]

theorem lookupN_setN_self {α : Type} (l : List (Nat × α)) (r : Nat) (a : α) :
    lookupN (setN l r a) r = some a := by
  induction l with
  | nil => simp [setN, lookupN]
  | cons ra rest ih =>
    obtain ⟨r1, a1⟩ := ra
    by_cases hr : r1 = r
    · subst hr; simp [setN, lookupN]
    · simp [setN, lookupN, hr, ih]

theorem lookupN_setN_ne {α : Type} (l : List (Nat × α)) (r q : Nat) (a : α)
    (hne : r ≠ q) : lookupN (setN l r a) q = lookupN l q := by
  induction l with
  | nil => simp [setN, lookupN, hne]
  | cons ra rest ih =>
    obtain ⟨r1, a1⟩ := ra
    by_cases hr : r1 = r
    · subst hr; simp [setN, lookupN, hne]
    · simp [setN, lookupN, hr, ih]

theorem getObj_setField_self (h : Heap) (r : Nat) (k : String) (v : HVal) :
    getObj (setField h r k v) r = setHF (getObj h r) k v := by
  simp [setField, setObj, getObj, lookupN_setN_self]

theorem getObj_setField_frame (h : Heap) (r q : Nat) (k : String) (v : HVal)
    (hne : r ≠ q) : getObj (setField h r k v) q = getObj h q := by
  simp [setField, setObj, getObj, lookupN_setN_ne _ _ _ _ hne]

theorem getObj_alloc_frame (h : Heap) (o : List (String × HVal)) (q : Nat)
    (hq : q < h.next) : getObj (allocObj h o).1 q = getObj h q := by
  simp [allocObj, getObj, lookupN, Nat.ne_of_gt hq]

theorem setField_next (h : Heap) (r : Nat) (k : String) (v : HVal) :
    (setField h r k v).next = h.next := rfl

theorem defaultStep_next_le (r : Nat) (h : Heap) (kd : String × CAttrDecl) :
    h.next ≤ (defaultStep r h kd).next := by
  unfold defaultStep
  repeat' split
  all_goals simp [setField, setObj, cloneWithBuf, allocObj]
  split
  all_goals simp [allocObj]

/-- A loop iteration for a key other than `q` neither changes the candidate
object's field under `q` nor lowers the allocation frontier. -/
theorem defaultStep_field_frame (r : Nat) (h : Heap) (kd : String × CAttrDecl)
    (q : String) (hne : kd.1 ≠ q) (hr : r < h.next) :
    lookupHF (getObj (defaultStep r h kd) r) q = lookupHF (getObj h r) q := by
  unfold defaultStep
  split
  · split
    · split
      · rw [getObj_setField_self, lookupHF_setHF_ne _ _ _ _ hne]
      · rw [getObj_setField_self, lookupHF_setHF_ne _ _ _ _ hne]
        unfold cloneWithBuf
        split
        · rw [getObj_alloc_frame _ _ _ hr]
        · rfl
    · rfl
  · rfl

theorem foldl_defaultStep_frame (r : Nat) (q : String) :
    ∀ (attrs : List (String × CAttrDecl)) (h : Heap),
    (∀ kd ∈ attrs, kd.1 ≠ q) → r < h.next →
    lookupHF (getObj (attrs.foldl (defaultStep r) h) r) q =
      lookupHF (getObj h r) q := by
  intro attrs
  induction attrs with
  | nil => intro h _ _; rfl
  | cons kd rest ih =>
    intro h hne hr
    rw [List.foldl_cons,
      ih _ (fun x hx => hne x (List.mem_cons_of_mem kd hx))
        (Nat.lt_of_lt_of_le hr (defaultStep_next_le r h kd)),
      defaultStep_field_frame r h kd q (hne kd (List.mem_cons_self kd rest)) hr]

/-- After the loop reaches the declaration of `k` (first by no-duplicate
keys), the caller's object holds the primitive literal default under `k`. -/
theorem foldl_defaultStep_lit (r : Nat) (k : String) (v : HVal)
    (hv : isPrimH v = true) :
    ∀ (attrs : List (String × CAttrDecl)) (h : Heap),
    (attrs.map Prod.fst).Nodup →
    lookupA attrs k = some (.cObjD (some (.lit v))) →
    needsDefault (getObj h r) k = true →
    r < h.next →
    lookupHF (getObj (attrs.foldl (defaultStep r) h) r) k = some v := by
  intro attrs
  induction attrs with
  | nil => intro h _ hk _ _; exact Option.noConfusion hk
  | cons kd rest ih =>
    intro h hnd hk hneed hr
    obtain ⟨k1, d1⟩ := kd
    rw [List.foldl_cons]
    by_cases hkk : k1 = k
    · subst hkk
      have hd1 : d1 = .cObjD (some (.lit v)) := by
        simpa [lookupA] using hk
      subst hd1
      have hstep : defaultStep r h (k1, .cObjD (some (.lit v))) =
          setField h r k1 v := by
        unfold defaultStep
        dsimp only
        rw [if_pos hneed]
        cases v <;> first
          | rfl
          | exact absurd hv (by simp [isPrimH])
      rw [hstep]
      have hrest : ∀ kd ∈ rest, kd.1 ≠ k1 := by
        intro x hx hxk
        exact (List.nodup_cons.mp (by simpa using hnd)).1
          (hxk ▸ List.mem_map_of_mem Prod.fst hx)
      rw [foldl_defaultStep_frame r k1 rest (setField h r k1 v) hrest hr,
        getObj_setField_self, lookupHF_setHF_self]
    · have hk' : lookupA rest k = some (.cObjD (some (.lit v))) := by
        simpa [lookupA, hkk] using hk
      have hneed' : needsDefault (getObj (defaultStep r h (k1, d1)) r) k
          = true := by
        unfold needsDefault
        rw [defaultStep_field_frame r h (k1, d1) k hkk hr]
        exact hneed
      exact ih _ (by simpa using (List.nodup_cons.mp (by simpa using hnd)).2)
        hk' hneed'
        (Nat.lt_of_lt_of_le hr (defaultStep_next_le r h (k1, d1)))

/-- Claim C8 (amended): for a declared attribute whose key is absent from or
undefined in the candidate object, `processValues` applies its default — a
function default is invoked with the candidate input object as its evaluation
context and its result written as the value; a literal primitive or Buffer
default is written as-is (the Buffer by reference); a literal object default
is SHALLOW-copied (not deep-copied, contrary to the spec): a fresh object is
allocated whose property list is the declared default's own property list, so
nested references are shared with the declaration. -/
theorem default_application_shapes (h : Heap) (r : Nat) (k : String)
    (dft : CDefault) (hneed : needsDefault (getObj h r) k = true) :
    (∀ f, dft = .fnD f →
      defaultStep r h (k, .cObjD (some dft)) = setField h r k (f r h)) ∧
    (∀ v, dft = .lit v → isPrimH v = true →
      defaultStep r h (k, .cObjD (some dft)) = setField h r k v) ∧
    (∀ ro, dft = .lit (.hObjRef ro) →
      defaultStep r h (k, .cObjD (some dft)) =
        setField (allocObj h (getObj h ro)).1 r k (.hObjRef h.next) ∧
      getObj (allocObj h (getObj h ro)).1 h.next = getObj h ro) := by
  refine ⟨?_, ?_, ?_⟩
  · intro f hf
    subst hf
    unfold defaultStep
    dsimp only
    rw [if_pos hneed]
  · intro v hv hp
    subst hv
    unfold defaultStep
    dsimp only
    rw [if_pos hneed]
    cases v <;> first
      | rfl
      | exact absurd hp (by simp [isPrimH])
  · intro ro hro
    subst hro
    refine ⟨?_, ?_⟩
    · unfold defaultStep
      dsimp only
      rw [if_pos hneed]
      rfl
    · simp [allocObj, getObj, lookupN]

/-- A concrete store: ref 0 is a declared object default `{nested: ref 1}`,
ref 1 is the shared nested object `{x: 1}`, ref 2 is the caller's empty
input. -/
def h0C8 : Heap :=
  ⟨[(1, [("x", HVal.hNum 1)]), (0, [("nested", HVal.hObjRef 1)]), (2, [])], 3⟩

theorem default_application_shapes_witness :
    needsDefault (getObj h0C8 2) "cfg" = true ∧
    (defaultStep 2 h0C8 ("cfg", .cObjD (some (.lit (.hObjRef 0)))) =
      setField (allocObj h0C8 (getObj h0C8 0)).1 2 "cfg"
        (.hObjRef h0C8.next) ∧
     getObj (allocObj h0C8 (getObj h0C8 0)).1 h0C8.next = getObj h0C8 0) :=
  ⟨rfl, (default_application_shapes h0C8 2 "cfg" (.lit (.hObjRef 0)) rfl).2.2
    0 rfl⟩

def attrsCfg : List (String × CAttrDecl) :=
  [("cfg", .cObjD (some (.lit (.hObjRef 0))))]

def h1C8 : Heap := (createProcessValues attrsCfg h0C8 2).1

/-- Claim C8, counterexample to deep-copying: applying the declared object
default `{nested: {x: 1}}` stores a fresh reference 3 in the caller's object,
but the clone's `nested` field holds the SAME reference 1 as the declaration
itself — reference 1 is a plain object, not a Buffer, so under deep-copying
it would have been copied rather than shared. -/
theorem default_deep_copy_counterexample :
    lookupHF (getObj h1C8 2) "cfg" = some (.hObjRef 3) ∧
    lookupHF (getObj h1C8 3) "nested" = some (.hObjRef 1) ∧
    lookupHF (getObj h0C8 0) "nested" = some (.hObjRef 1) ∧
    getObj h1C8 1 = [("x", HVal.hNum 1)] :=
  ⟨rfl, rfl, rfl, rfl⟩

/-- Claim C10: `create` mutates the caller's input object in place — for a
collection declaring a (primitive-literal) default for an attribute missing
from or undefined in the input, `processValues` writes the default through
the caller's own reference before any copy is taken, and hands that same
reference onward, so the input is not isolated from value processing. -/
theorem create_mutates_caller_input (attrs : List (String × CAttrDecl))
    (h : Heap) (r : Nat) (k : String) (v : HVal)
    (hnd : (attrs.map Prod.fst).Nodup)
    (hk : lookupA attrs k = some (.cObjD (some (.lit v))))
    (hv : isPrimH v = true)
    (hneed : needsDefault (getObj h r) k = true)
    (hr : r < h.next) :
    (createProcessValues attrs h r).2 = r ∧
    lookupHF (getObj (createProcessValues attrs h r).1 r) k = some v :=
  ⟨rfl, foldl_defaultStep_lit r k v hv attrs h hnd hk hneed hr⟩

def attrsName : List (String × CAttrDecl) :=
  [("name", .cObjD (some (.lit (.hStr "anon"))))]

def h0C10 : Heap := ⟨[(0, [])], 1⟩

theorem create_mutates_caller_input_witness :
    (createProcessValues attrsName h0C10 0).2 = 0 ∧
    lookupHF (getObj (createProcessValues attrsName h0C10 0).1 0) "name" =
      some (.hStr "anon") :=
  create_mutates_caller_input attrsName h0C10 0 "name" (.hStr "anon")
    (by decide) rfl rfl rfl (by decide)

end Offshore
